import Mathlib

set_option maxHeartbeats 1000000

/-!
Verification model of the litellm-vscode-chat streaming core.

The definitions below are a shallow embedding of the TypeScript sources:
  - src/utils.ts                  (tryParseJSONObject)
  - src/providers/liteLLMProvider.ts  (the streaming normalizer / tool-call assembler)
  - src/adapters/litellmClient.ts (request translation to the responses format,
                                   rate-limit backoff loop)
  - src/adapters/tokenUtils.ts    (trimMessagesToFitBudget)

JavaScript strings are modelled as Lean `String` (scanned as `List Char`),
JSON.parse by an executable recursive-descent parser, JS `Map`/`Set` by
insertion-ordered association lists, and `Math.random`-based id generation by
an abstract generator value supplied from outside (ids never influence control
flow in the source).
-/

namespace LiteLLM

/-- JSON value, as produced by JSON.parse.  Numbers keep their source lexeme. -/
inductive Json where
  | null : Json
  | bool (b : Bool) : Json
  | num (lexeme : String) : Json
  | str (s : String) : Json
  | arr (elems : List Json) : Json
  | obj (fields : List (String × Json)) : Json

def isJsonWs (c : Char) : Bool :=
  c = ' ' || c = '\t' || c = '\n' || c = '\r'

def skipWs (cs : List Char) : List Char :=
  cs.dropWhile isJsonWs

def hexVal (c : Char) : Option Nat :=
  if '0' ≤ c ∧ c ≤ '9' then some (c.toNat - '0'.toNat)
  else if 'a' ≤ c ∧ c ≤ 'f' then some (c.toNat - 'a'.toNat + 10)
  else if 'A' ≤ c ∧ c ≤ 'F' then some (c.toNat - 'A'.toNat + 10)
  else none

def escChar (c : Char) : Option Char :=
  if c = '"' then some '"'
  else if c = '\\' then some '\\'
  else if c = '/' then some '/'
  else if c = 'b' then some (Char.ofNat 8)
  else if c = 'f' then some (Char.ofNat 12)
  else if c = 'n' then some '\n'
  else if c = 'r' then some '\r'
  else if c = 't' then some '\t'
  else none

/-- Body of a JSON string literal, after the opening quote.
Returns the decoded characters and the remainder after the closing quote. -/
def parseStringBody (fuel : Nat) (cs : List Char) : Option (List Char × List Char) :=
  match fuel with
  | 0 => none
  | fuel + 1 =>
    match cs with
    | [] => none
    | '"' :: rest => some ([], rest)
    | '\\' :: 'u' :: h1 :: h2 :: h3 :: h4 :: rest =>
      match hexVal h1, hexVal h2, hexVal h3, hexVal h4 with
      | some a, some b, some c, some d =>
        match parseStringBody fuel rest with
        | some (tail, rem) => some (Char.ofNat (((a * 16 + b) * 16 + c) * 16 + d) :: tail, rem)
        | none => none
      | _, _, _, _ => none
    | '\\' :: e :: rest =>
      match escChar e with
      | some c =>
        match parseStringBody fuel rest with
        | some (tail, rem) => some (c :: tail, rem)
        | none => none
      | none => none
    | '\\' :: [] => none
    | c :: rest =>
      if c.toNat < 32 then none
      else
        match parseStringBody fuel rest with
        | some (tail, rem) => some (c :: tail, rem)
        | none => none

def isDigitCh (c : Char) : Bool := '0' ≤ c ∧ c ≤ '9'

/-- JSON number grammar; returns the accepted lexeme and the remainder. -/
def parseNumberLex (cs : List Char) : Option (List Char × List Char) :=
  let (sign, cs1) :=
    match cs with
    | '-' :: rest => (['-'], rest)
    | _ => (([] : List Char), cs)
  match cs1 with
  | '0' :: rest =>
    let (frac, rest1) :=
      match rest with
      | '.' :: more =>
        let ds := more.takeWhile isDigitCh
        if ds = [] then (none, rest) else (some ('.' :: ds), more.dropWhile isDigitCh)
      | _ => (none, rest)
    match frac with
    | none =>
      match parseExpPart rest with
      | some (ex, rest2) => some (sign ++ ['0'] ++ ex, rest2)
      | none => none
    | some f =>
      match parseExpPart rest1 with
      | some (ex, rest2) => some (sign ++ ['0'] ++ f ++ ex, rest2)
      | none => none
  | d :: _ =>
    if isDigitCh d then
      let intDigits := cs1.takeWhile isDigitCh
      let restI := cs1.dropWhile isDigitCh
      let (frac, rest1) :=
        match restI with
        | '.' :: more =>
          let ds := more.takeWhile isDigitCh
          if ds = [] then (none, restI) else (some ('.' :: ds), more.dropWhile isDigitCh)
        | _ => (none, restI)
      match frac with
      | none =>
        match parseExpPart restI with
        | some (ex, rest2) => some (sign ++ intDigits ++ ex, rest2)
        | none => none
      | some f =>
        match parseExpPart rest1 with
        | some (ex, rest2) => some (sign ++ intDigits ++ f ++ ex, rest2)
        | none => none
    else none
  | [] => none
where
  parseExpPart (cs : List Char) : Option (List Char × List Char) :=
    match cs with
    | 'e' :: rest => parseExpTail 'e' rest
    | 'E' :: rest => parseExpTail 'E' rest
    | _ => some ([], cs)
  parseExpTail (e : Char) (rest : List Char) : Option (List Char × List Char) :=
    let (sgn, rest1) :=
      match rest with
      | '+' :: more => (['+'], more)
      | '-' :: more => (['-'], more)
      | _ => (([] : List Char), rest)
    let ds := rest1.takeWhile isDigitCh
    if ds = [] then none
    else some (e :: sgn ++ ds, rest1.dropWhile isDigitCh)

mutual

/-- Recursive-descent JSON value parser (model of JSON.parse). -/
def parseVal (fuel : Nat) (cs : List Char) : Option (Json × List Char) :=
  match fuel with
  | 0 => none
  | fuel + 1 =>
    let cs := skipWs cs
    match cs with
    | [] => none
    | '{' :: rest =>
      let rest1 := skipWs rest
      match rest1 with
      | '}' :: rem => some (Json.obj [], rem)
      | _ => parseMembers fuel rest1 []
    | '[' :: rest =>
      let rest1 := skipWs rest
      match rest1 with
      | ']' :: rem => some (Json.arr [], rem)
      | _ => parseElems fuel rest1 []
    | '"' :: rest =>
      match parseStringBody (rest.length + 1) rest with
      | some (content, rem) => some (Json.str (String.mk content), rem)
      | none => none
    | 't' :: rest =>
      if ['r', 'u', 'e'].isPrefixOf rest then some (Json.bool true, rest.drop 3) else none
    | 'f' :: rest =>
      if ['a', 'l', 's', 'e'].isPrefixOf rest then some (Json.bool false, rest.drop 4) else none
    | 'n' :: rest =>
      if ['u', 'l', 'l'].isPrefixOf rest then some (Json.null, rest.drop 3) else none
    | _ =>
      match parseNumberLex cs with
      | some (lex, rem) => some (Json.num (String.mk lex), rem)
      | none => none

/-- Members of a JSON object after the opening brace (at least one member). -/
def parseMembers (fuel : Nat) (cs : List Char) (acc : List (String × Json)) :
    Option (Json × List Char) :=
  match fuel with
  | 0 => none
  | fuel + 1 =>
    match skipWs cs with
    | '"' :: rest =>
      match parseStringBody (rest.length + 1) rest with
      | some (key, rem) =>
        match skipWs rem with
        | ':' :: rem1 =>
          match parseVal fuel rem1 with
          | some (v, rem2) =>
            let acc := acc ++ [(String.mk key, v)]
            match skipWs rem2 with
            | ',' :: rem3 => parseMembers fuel rem3 acc
            | '}' :: rem3 => some (Json.obj acc, rem3)
            | _ => none
          | none => none
        | _ => none
      | none => none
    | _ => none

/-- Elements of a JSON array after the opening bracket (at least one element). -/
def parseElems (fuel : Nat) (cs : List Char) (acc : List Json) :
    Option (Json × List Char) :=
  match fuel with
  | 0 => none
  | fuel + 1 =>
    match parseVal fuel cs with
    | some (v, rem) =>
      let acc := acc ++ [v]
      match skipWs rem with
      | ',' :: rem1 => parseElems fuel rem1 acc
      | ']' :: rem1 => some (Json.arr acc, rem1)
      | _ => none
    | none => none

end

/-- Model of JSON.parse on a whole string. -/
def jsonParse (s : String) : Option Json :=
  match parseVal (s.data.length + 1) s.data with
  | some (v, rest) => if skipWs rest = [] then some v else none
  | none => none

/-- Shallow embedding of utils.ts tryParseJSONObject: parse succeeds only when the
text is non-empty, contains a brace, and parses to a JSON object (not null,
array, or scalar). -/
def tryParseJSONObject (text : String) : Option (List (String × Json)) :=
  if text = "" then none
  else if ¬ (text.data.contains '{') then none
  else
    match jsonParse text with
    | some (Json.obj fields) => some fields
    | _ => none

def hexDigitCh (n : Nat) : Char :=
  if n < 10 then Char.ofNat ('0'.toNat + n) else Char.ofNat ('a'.toNat + n - 10)

def escapeStringChars (cs : List Char) : List Char :=
  match cs with
  | [] => []
  | c :: rest =>
    if c = '"' then '\\' :: '"' :: escapeStringChars rest
    else if c = '\\' then '\\' :: '\\' :: escapeStringChars rest
    else if c = '\n' then '\\' :: 'n' :: escapeStringChars rest
    else if c = '\r' then '\\' :: 'r' :: escapeStringChars rest
    else if c = '\t' then '\\' :: 't' :: escapeStringChars rest
    else if c.toNat = 8 then '\\' :: 'b' :: escapeStringChars rest
    else if c.toNat = 12 then '\\' :: 'f' :: escapeStringChars rest
    else if c.toNat < 32 then
      '\\' :: 'u' :: '0' :: '0' :: hexDigitCh (c.toNat / 16) :: hexDigitCh (c.toNat % 16) ::
        escapeStringChars rest
    else c :: escapeStringChars rest

def quoteJsonString (s : String) : String :=
  String.mk ('"' :: escapeStringChars s.data ++ ['"'])

mutual

/-- Model of JSON.stringify as used for the canonical dedup key. -/
def stringifyJson : Json → String
  | Json.null => "null"
  | Json.bool true => "true"
  | Json.bool false => "false"
  | Json.num lex => lex
  | Json.str s => quoteJsonString s
  | Json.arr elems => "[" ++ stringifyElems elems ++ "]"
  | Json.obj fields => "\x7b" ++ stringifyMembers fields ++ "\x7d"

def stringifyElems : List Json → String
  | [] => ""
  | [x] => stringifyJson x
  | x :: rest => stringifyJson x ++ "," ++ stringifyElems rest

def stringifyMembers : List (String × Json) → String
  | [] => ""
  | [(k, v)] => quoteJsonString k ++ ":" ++ stringifyJson v
  | (k, v) :: rest => quoteJsonString k ++ ":" ++ stringifyJson v ++ "," ++ stringifyMembers rest

end

/-! Streaming normalizer state (liteLLMProvider.ts). -/

/-- JavaScript truthiness of an optional string field: absent and "" are falsy. -/
def jsTruthy (o : Option String) : Bool := (o.getD "") ≠ ""

/-- JavaScript a || b on optional string fields. -/
def jsOrStr (a b : Option String) : Option String := if jsTruthy a then a else b

/-- Stand-in values for the two Math.random-based id generators; the generated
ids never influence control flow in the source. -/
structure IdGen where
  bufId : String
  textId : String

/-- Canonical output part reported to the caller via progress.report. -/
inductive Part where
  | text (s : String) : Part
  | toolCall (id : String) (name : String) (args : List (String × Json)) : Part

/-- Per-index tool-call buffer (the _toolCallBuffers map values). -/
structure Buf where
  id : Option String := none
  name : Option String := none
  args : String := ""

/-- Insertion-ordered association list lookup (JS Map.get). -/
def lookupA (m : List (Nat × Buf)) (k : Nat) : Option Buf :=
  match m with
  | [] => none
  | (k', v) :: rest => if k' = k then some v else lookupA rest k

/-- JS Map.set: update in place, or append a new key at the end. -/
def setA (m : List (Nat × Buf)) (k : Nat) (v : Buf) : List (Nat × Buf) :=
  match m with
  | [] => [(k, v)]
  | (k', v') :: rest => if k' = k then (k, v) :: rest else (k', v') :: setA rest k v

/-- JS Map.delete. -/
def eraseA (m : List (Nat × Buf)) (k : Nat) : List (Nat × Buf) :=
  match m with
  | [] => []
  | (k', v') :: rest => if k' = k then rest else (k', v') :: eraseA rest k

/-- JS Set.add on strings (insertion ordered, no duplicates). -/
def addUnique (l : List String) (x : String) : List String :=
  if l.contains x then l else l ++ [x]

/-- JS Set.add on numbers. -/
def addUniqueNat (l : List Nat) (n : Nat) : List Nat :=
  if l.contains n then l else l ++ [n]

/-- Active inline-text tool call (_textToolActive). -/
structure Active where
  name : Option String := none
  index : Option Nat := none
  argBuffer : String := ""
  emitted : Bool := false

/-- Streaming state fields of LiteLLMChatModelProvider. -/
structure St where
  toolCallBuffers : List (Nat × Buf) := []
  completedToolCallIndices : List Nat := []
  hasEmittedAssistantText : Bool := false
  emittedBeginToolCallsHint : Bool := false
  textToolParserBuffer : String := ""
  textToolActive : Option Active := none
  emittedTextToolCallKeys : List String := []
  emittedTextToolCallIds : List String := []
  lastEmittedText : String := ""
  repeatCount : Nat := 0

/-- State after resetStreamingState. -/
def initSt : St := {}

/-- One tool_calls entry of a shape-A delta frame. -/
structure Fragment where
  index : Option Nat := none
  id : Option String := none
  fname : Option String := none
  fargs : Option String := none

/-- tryEmitBufferedToolCall: emit the buffered call early once its name is
present and its accumulated arguments parse as a JSON object. -/
def tryEmitBufferedToolCall (gen : IdGen) (st : St) (index : Nat) : St × List Part :=
  match lookupA st.toolCallBuffers index with
  | none => (st, [])
  | some buf =>
    if ¬ jsTruthy buf.name then (st, [])
    else
      match tryParseJSONObject buf.args with
      | none => (st, [])
      | some value =>
        let id := buf.id.getD gen.bufId
        ({ st with
            toolCallBuffers := eraseA st.toolCallBuffers index,
            completedToolCallIndices := addUniqueNat st.completedToolCallIndices index },
          [Part.toolCall id (buf.name.getD "") value])

/-- Effective map key of a fragment: (tc["index"] as number) ?? 0. -/
def effIdx (tc : Fragment) : Nat := tc.index.getD 0

/-- Buffer accumulation of one fragment: truthy id and name overwrite, truthy
argument chunks append. -/
def updBuf (buf : Buf) (tc : Fragment) : Buf :=
  let buf := if jsTruthy tc.id then { buf with id := tc.id } else buf
  let buf := if jsTruthy tc.fname then { buf with name := tc.fname } else buf
  if jsTruthy tc.fargs then { buf with args := buf.args ++ tc.fargs.getD "" } else buf

/-- Body of the per-fragment loop in processDelta (accumulate, then attempt
early emission). -/
def processToolCallFragment (gen : IdGen) (st : St) (tc : Fragment) : St × List Part :=
  let idx := effIdx tc
  if st.completedToolCallIndices.contains idx then (st, [])
  else
    let buf := updBuf ((lookupA st.toolCallBuffers idx).getD {}) tc
    let st := { st with toolCallBuffers := setA st.toolCallBuffers idx buf }
    tryEmitBufferedToolCall gen st idx

/-- Iteration of flushToolCallBuffers over a snapshot of the buffer entries.
The Bool result records whether the "Invalid JSON for tool call" error was
thrown (which aborts the remaining entries). -/
def flushEntries (gen : IdGen) (throwOnInvalid : Bool) (entries : List (Nat × Buf)) (st : St) :
    List Part × St × Bool :=
  match entries with
  | [] => ([], st, false)
  | (idx, buf) :: rest =>
    match tryParseJSONObject buf.args with
    | none =>
      if throwOnInvalid then ([], st, true)
      else flushEntries gen throwOnInvalid rest st
    | some value =>
      let id := buf.id.getD gen.bufId
      let name := buf.name.getD "unknown_tool"
      let st := { st with
          toolCallBuffers := eraseA st.toolCallBuffers idx,
          completedToolCallIndices := addUniqueNat st.completedToolCallIndices idx }
      let (parts, st', threw) := flushEntries gen throwOnInvalid rest st
      (Part.toolCall id name value :: parts, st', threw)

/-- flushToolCallBuffers. -/
def flushToolCallBuffers (gen : IdGen) (throwOnInvalid : Bool) (st : St) :
    List Part × St × Bool :=
  flushEntries gen throwOnInvalid st.toolCallBuffers st

/-! Inline control-token stripping (stripControlTokens). -/

def isTokCh (c : Char) : Bool := c.isAlphanum || c = '_' || c = '-'

/-- Does a maximal token-character run spell X_section_begin or X_section_end
with X non-empty (the first replace pattern)? -/
def isSectionRun (run : List Char) : Bool :=
  ("_section_begin".data.isSuffixOf run ∧ 14 < run.length) ||
  ("_section_end".data.isSuffixOf run ∧ 12 < run.length)

/-- Try to match the section-token pattern at the head; return the remainder. -/
def tryTokSection (cs : List Char) : Option (List Char) :=
  match cs with
  | '<' :: '|' :: rest =>
    let run := rest.takeWhile isTokCh
    match rest.dropWhile isTokCh with
    | '|' :: '>' :: rem => if isSectionRun run then some rem else none
    | _ => none
  | _ => none

def stripSectionGo (fuel : Nat) (cs : List Char) : List Char :=
  match fuel with
  | 0 => cs
  | fuel + 1 =>
    match cs with
    | [] => []
    | c :: rest =>
      match tryTokSection (c :: rest) with
      | some rem => stripSectionGo fuel rem
      | none => c :: stripSectionGo fuel rest

def toolCallTokenLits : List (List Char) :=
  ["<|tool_call_argument_begin|>".data, "<|tool_call_argument_end|>".data,
   "<|tool_call_begin|>".data, "<|tool_call_end|>".data]

def tryTokToolCall (cs : List Char) : Option (List Char) :=
  match toolCallTokenLits.find? (fun lit => lit.isPrefixOf cs) with
  | some lit => some (cs.drop lit.length)
  | none => none

def stripToolCallGo (fuel : Nat) (cs : List Char) : List Char :=
  match fuel with
  | 0 => cs
  | fuel + 1 =>
    match cs with
    | [] => []
    | c :: rest =>
      match tryTokToolCall (c :: rest) with
      | some rem => stripToolCallGo fuel rem
      | none => c :: stripToolCallGo fuel rest

/-- stripControlTokens: erase section tokens, then the tool-call delimiters. -/
def stripCT (cs : List Char) : List Char :=
  let s1 := stripSectionGo cs.length cs
  stripToolCallGo s1.length s1

/-! Inline tool-call mini-language parser (processTextContent). -/

def BEGINtok : List Char := "<|tool_call_begin|>".data
def ARGBEGINtok : List Char := "<|tool_call_argument_begin|>".data
def ENDtok : List Char := "<|tool_call_end|>".data

/-- Leftmost index of pat inside cs (JS String.indexOf). -/
def idxOfSub (pat : List Char) (cs : List Char) : Option Nat :=
  if pat.isPrefixOf cs then some 0
  else
    match cs with
    | [] => none
    | _ :: rest => (idxOfSub pat rest).map (· + 1)

def heldLenGo (data pat : List Char) : Nat → Nat
  | 0 => 0
  | k + 1 => if (pat.take (k + 1)).isSuffixOf data then k + 1 else heldLenGo data pat k

/-- Longest proper marker head held back at a chunk boundary (the inner
longestPartialPrefix closure, which scans k from min(len-1, data.len-1)). -/
def heldLen (data pat : List Char) : Nat :=
  heldLenGo data pat (min (pat.length - 1) (data.length - 1))

def isJsWsCh (c : Char) : Bool :=
  c = ' ' || c = '\t' || c = '\n' || c = '\r' || c.toNat = 11 || c.toNat = 12

/-- JS String.prototype.trim. -/
def jsTrim (cs : List Char) : List Char :=
  ((cs.dropWhile isJsWsCh).reverse.dropWhile isJsWsCh).reverse

def isNameCh (c : Char) : Bool := c.isAlphanum || c = '_' || c = '-' || c = '.'

def natOfDigits (ds : List Char) : Nat :=
  ds.foldl (fun a c => a * 10 + (c.toNat - '0'.toNat)) 0

/-- Header match ^([A-Za-z0-9_\-.]+)(?::(\d+))? giving (name, index). -/
def parseHeader (header : List Char) : Option String × Option Nat :=
  let nm := header.takeWhile isNameCh
  if nm = [] then (none, none)
  else
    match header.dropWhile isNameCh with
    | ':' :: more =>
      let ds := more.takeWhile isDigitCh
      if ds = [] then (some (String.mk nm), none)
      else (some (String.mk nm), some (natOfDigits ds))
    | _ => (some (String.mk nm), none)

def natToStrGo (fuel n : Nat) (acc : List Char) : List Char :=
  match fuel with
  | 0 => acc
  | fuel + 1 =>
    if n < 10 then Char.ofNat ('0'.toNat + n) :: acc
    else natToStrGo fuel (n / 10) (Char.ofNat ('0'.toNat + n % 10) :: acc)

def natToStr (n : Nat) : String := String.mk (natToStrGo (n + 1) n [])

/-- Text tool-call dedup sets (_emittedTextToolCallKeys / Ids). -/
structure TextEmitSt where
  keys : List String := []
  ids : List String := []

/-- emitTextToolCallIfValid: emit once the args parse, deduplicating on
name:index when an index is present, else on name:canonical-args. -/
def emitTextToolCallIfValid (gen : IdGen) (tes : TextEmitSt) (call : Active) (argText : String) :
    Option Part × TextEmitSt :=
  let name := call.name.getD "unknown_tool"
  match tryParseJSONObject argText with
  | none => (none, tes)
  | some value =>
    let canonical := stringifyJson (Json.obj value)
    let key := name ++ ":" ++ canonical
    match call.index with
    | some ix =>
      let idKey := name ++ ":" ++ natToStr ix
      if tes.ids.contains idKey then (none, tes)
      else
        let tes := { tes with ids := addUnique tes.ids idKey }
        let tes := { tes with keys := addUnique tes.keys key }
        (some (Part.toolCall ("tct_" ++ gen.textId) name value), tes)
    | none =>
      if tes.keys.contains key then (none, tes)
      else
        let tes := { tes with keys := addUnique tes.keys key }
        (some (Part.toolCall ("tct_" ++ gen.textId) name value), tes)

/-- Result of the while loop in processTextContent. -/
structure LoopOut where
  data : List Char
  pb : String
  active : Option Active
  tes : TextEmitSt
  vis : List Char
  parts : List Part
  emittedAny : Bool

/-- The while loop of processTextContent.  Fuel counts loop iterations; each
iteration consumes at least one character, so data.length + 1 always
suffices. -/
def ptcLoop (gen : IdGen) (fuel : Nat) (data : List Char) (pb : String)
    (active : Option Active) (tes : TextEmitSt) (vis : List Char) (parts : List Part)
    (emittedAny : Bool) : LoopOut :=
  match fuel with
  | 0 => ⟨data, pb, active, tes, vis, parts, emittedAny⟩
  | fuel + 1 =>
    match data with
    | [] => ⟨[], pb, active, tes, vis, parts, emittedAny⟩
    | c :: rest =>
      let data := c :: rest
      match active with
      | none =>
        match idxOfSub BEGINtok data with
        | none =>
          let k := heldLen data BEGINtok
          if 0 < k then
            let visible := data.take (data.length - k)
            let vis := if visible ≠ [] then vis ++ stripCT visible else vis
            ⟨[], String.mk (data.drop (data.length - k)), active, tes, vis, parts, emittedAny⟩
          else
            ⟨[], pb, active, tes, vis ++ stripCT data, parts, emittedAny⟩
        | some b =>
          let pre := data.take b
          let vis := if pre ≠ [] then vis ++ stripCT pre else vis
          let data1 := data.drop (b + BEGINtok.length)
          let a := idxOfSub ARGBEGINtok data1
          let e := idxOfSub ENDtok data1
          match a, e with
          | none, none =>
            ⟨[], String.mk (BEGINtok ++ data1), active, tes, vis, parts, emittedAny⟩
          | some ai, none =>
            let (nm, ix) := parseHeader (jsTrim (data1.take ai))
            let act : Active := { name := nm, index := ix, argBuffer := "", emitted := false }
            ptcLoop gen fuel (data1.drop (ai + ARGBEGINtok.length)) pb (some act) tes vis parts
              emittedAny
          | some ai, some ei =>
            if ai < ei then
              let (nm, ix) := parseHeader (jsTrim (data1.take ai))
              let act : Active := { name := nm, index := ix, argBuffer := "", emitted := false }
              ptcLoop gen fuel (data1.drop (ai + ARGBEGINtok.length)) pb (some act) tes vis parts
                emittedAny
            else
              let (nm, ix) := parseHeader (jsTrim (data1.take ei))
              let act : Active := { name := nm, index := ix, argBuffer := "", emitted := false }
              let (p?, tes) := emitTextToolCallIfValid gen tes act "{}"
              ptcLoop gen fuel (data1.drop (ei + ENDtok.length)) pb none tes vis
                (parts ++ p?.toList) (emittedAny || p?.isSome)
          | none, some ei =>
            let (nm, ix) := parseHeader (jsTrim (data1.take ei))
            let act : Active := { name := nm, index := ix, argBuffer := "", emitted := false }
            let (p?, tes) := emitTextToolCallIfValid gen tes act "{}"
            ptcLoop gen fuel (data1.drop (ei + ENDtok.length)) pb none tes vis
              (parts ++ p?.toList) (emittedAny || p?.isSome)
      | some act =>
        match idxOfSub ENDtok data with
        | none =>
          let act := { act with argBuffer := act.argBuffer ++ String.mk data }
          if ¬ act.emitted then
            let (p?, tes) := emitTextToolCallIfValid gen tes act act.argBuffer
            let act := if p?.isSome then { act with emitted := true } else act
            ⟨[], pb, some act, tes, vis, parts ++ p?.toList, emittedAny || p?.isSome⟩
          else
            ⟨[], pb, some act, tes, vis, parts, emittedAny⟩
        | some ei =>
          let act := { act with argBuffer := act.argBuffer ++ String.mk (data.take ei) }
          let data2 := data.drop (ei + ENDtok.length)
          if ¬ act.emitted then
            let (p?, tes) := emitTextToolCallIfValid gen tes act act.argBuffer
            ptcLoop gen fuel data2 pb none tes vis (parts ++ p?.toList) (emittedAny || p?.isSome)
          else
            ptcLoop gen fuel data2 pb none tes vis parts emittedAny

/-- processTextContent: run the FSM over leftover + input, then route the
visible text through the repetition guard (reported after any tool-call parts
of this chunk). -/
def processTextContent (gen : IdGen) (st : St) (input : String) :
    St × List Part × Bool × Bool :=
  let data0 := st.textToolParserBuffer.data ++ input.data
  let r := ptcLoop gen (data0.length + 1) data0 st.textToolParserBuffer st.textToolActive
    { keys := st.emittedTextToolCallKeys, ids := st.emittedTextToolCallIds } [] [] false
  let visS := String.mk r.vis
  let guarded :=
    if visS ≠ "" then
      if visS = st.lastEmittedText then (st.lastEmittedText, st.repeatCount + 1)
      else (visS, 0)
    else (st.lastEmittedText, st.repeatCount)
  let emitVisible := visS ≠ "" ∧ guarded.2 < 20
  let parts := r.parts ++ (if emitVisible then [Part.text visS] else [])
  let st' := { st with
      textToolParserBuffer := String.mk r.data,
      textToolActive := r.active,
      emittedTextToolCallKeys := r.tes.keys,
      emittedTextToolCallIds := r.tes.ids,
      lastEmittedText := guarded.1,
      repeatCount := guarded.2 }
  (st', parts, decide emitVisible, r.emittedAny || decide emitVisible)

/-- flushActiveTextToolCall. -/
def flushActiveTextToolCall (gen : IdGen) (st : St) : St × List Part :=
  match st.textToolActive with
  | none => (st, [])
  | some act =>
    let (p?, tes) := emitTextToolCallIfValid gen
      { keys := st.emittedTextToolCallKeys, ids := st.emittedTextToolCallIds } act act.argBuffer
    ({ st with
        textToolActive := none,
        emittedTextToolCallKeys := tes.keys,
        emittedTextToolCallIds := tes.ids },
      p?.toList)

/-! Decoded frame shapes and processDelta dispatch. -/

/-- Item payload of a response.output_item.done event. -/
structure DoneItem where
  type : Option String := none
  call_id : Option String := none
  name : Option String := none
  arguments : Option String := none

/-- choices[0].delta sub-object of a shape-A frame. -/
structure DeltaObj where
  content : Option String := none
  tool_calls : Option (List Fragment) := none

/-- Decoded JSON frame, one constructor per dispatch branch of processDelta
(tried in source order: event-typed frames, choices[0], output[0] with an
output_text item, top-level content/text, anything else). -/
inductive Frame where
  | outputTextDelta (delta text chunk : Option String)
  | outputItemDone (item : Option DoneItem)
  | choices (delta : Option DeltaObj) (finish : Option String)
  | outputText (found : Bool) (text : Option String) (finish : Option String)
  | topLevel (content text : Option String)
  | unrecognized

/-- Outcome of processing one frame: the reported parts, the new state, and
whether the strict flush threw. -/
structure FrameOut where
  parts : List Part
  st : St
  threw : Bool

/-- The content-handling part of a choices[0] delta: a truthy content string
runs through processTextContent and may mark assistant text as emitted. -/
def processChoiceContent (gen : IdGen) (st : St) (content : Option String) : St × List Part :=
  match content with
  | some c =>
    if c ≠ "" then
      let (st1, ps, emittedText, _) := processTextContent gen st c
      let st1 := if emittedText then { st1 with hasEmittedAssistantText := true } else st1
      (st1, ps)
    else (st, [])
  | none => (st, [])

/-- The delta-handling half of a choices[0] entry: text content, then
tool-call fragments (with the begin-hint space). -/
def processChoiceDelta (gen : IdGen) (st : St) (delta? : Option DeltaObj) : St × List Part :=
  match delta? with
  | none => (st, ([] : List Part))
  | some d =>
    let (st, parts) := processChoiceContent gen st d.content
    match d.tool_calls with
    | some tcs =>
      let (st, parts) :=
        if ¬ st.emittedBeginToolCallsHint ∧ st.hasEmittedAssistantText ∧ 0 < tcs.length then
          ({ st with emittedBeginToolCallsHint := true }, parts ++ [Part.text " "])
        else (st, parts)
      tcs.foldl (fun (acc : St × List Part) tc =>
        let (st', ps) := processToolCallFragment gen acc.1 tc
        (st', acc.2 ++ ps)) (st, parts)
    | none => (st, parts)

/-- Shared handling of a synthesized or real choices[0] entry: the delta
content, then the strict flush on a finishing finish_reason. -/
def processChoice (gen : IdGen) (st : St) (delta? : Option DeltaObj) (finish : Option String) :
    FrameOut :=
  let (st, parts) := processChoiceDelta gen st delta?
  if finish = some "tool_calls" ∨ finish = some "stop" then
    let (fparts, st', threw) := flushToolCallBuffers gen true st
    ⟨parts ++ fparts, st', threw⟩
  else ⟨parts, st, false⟩

/-- processDelta on one decoded frame. -/
def processFrame (gen : IdGen) (st : St) : Frame → FrameOut
  | Frame.outputTextDelta d t c =>
    let textDelta := jsOrStr (jsOrStr d t) c
    if jsTruthy textDelta then
      let td := textDelta.getD ""
      let (last, rc) :=
        if td = st.lastEmittedText then (st.lastEmittedText, st.repeatCount + 1) else (td, 0)
      let st := { st with lastEmittedText := last, repeatCount := rc }
      if rc < 20 then ⟨[Part.text td], st, false⟩ else ⟨[], st, false⟩
    else ⟨[], st, false⟩
  | Frame.outputItemDone item? =>
    match item? with
    | some item =>
      if item.type = some "function_call" then
        let name := if jsTruthy item.name then item.name.getD "" else "unknown_tool"
        if jsTruthy item.call_id ∧ jsTruthy item.arguments then
          match tryParseJSONObject (item.arguments.getD "") with
          | some value => ⟨[Part.toolCall (item.call_id.getD "") name value], st, false⟩
          | none => ⟨[], st, false⟩
        else ⟨[], st, false⟩
      else ⟨[], st, false⟩
    | none => ⟨[], st, false⟩
  | Frame.choices d f => processChoice gen st d f
  | Frame.outputText found text f =>
    if found then processChoice gen st (some { content := text, tool_calls := none }) f
    else ⟨[], st, false⟩
  | Frame.topLevel content text =>
    let c := jsOrStr content text
    if jsTruthy c then processChoice gen st (some { content := c, tool_calls := none }) none
    else ⟨[], st, false⟩
  | Frame.unrecognized => ⟨[], st, false⟩

/-- Handling of the [DONE] sentinel line: lenient buffer flush, then flush of
any active inline-text call. -/
def handleDone (gen : IdGen) (st : St) : List Part × St × Bool :=
  let (p1, st1, threw) := flushToolCallBuffers gen false st
  let (st2, p2) := flushActiveTextToolCall gen st1
  (p1 ++ p2, st2, threw)

/-- One decoded stream line: a JSON frame or the [DONE] sentinel. -/
inductive Line where
  | frame (f : Frame)
  | done

/-- Per-line processing in processStreamingResponse.  Exceptions from
processDelta are swallowed by the per-line catch, so processing continues. -/
def processLine (gen : IdGen) (st : St) : Line → List Part × St
  | Line.done =>
    let (p, st', _) := handleDone gen st
    (p, st')
  | Line.frame f =>
    let r := processFrame gen st f
    (r.parts, r.st)

/-- Run of the streaming loop over a sequence of decoded lines. -/
def runLines (gen : IdGen) (st : St) : List Line → List Part × St
  | [] => ([], st)
  | l :: rest =>
    let (p, st') := processLine gen st l
    let (ps, st'') := runLines gen st' rest
    (p ++ ps, st'')

/-- Run over decoded frames keeping the parts reported per frame; the Bool
records whether any strict flush threw along the way. -/
def runFrames (gen : IdGen) (st : St) : List Frame → List (List Part) × St × Bool
  | [] => ([], st, false)
  | f :: rest =>
    let r := processFrame gen st f
    let (ps, st', tw) := runFrames gen r.st rest
    (r.parts :: ps, st', r.threw || tw)

/-! Request translation to the responses format (litellmClient.ts). -/

/-- Content of an OpenAI chat message. -/
inductive ChatContent where
  | str (s : String)
  | items (xs : List (String × Option String))
  | absent

/-- Assistant tool-call entry. -/
structure OpenAIToolCall where
  id : String
  name : String
  arguments : String

/-- OpenAI-style chat message. -/
structure ChatMsg where
  role : String
  content : ChatContent := ChatContent.absent
  tool_calls : Option (List OpenAIToolCall) := none
  tool_call_id : Option String := none

/-- OpenAI function tool definition. -/
structure ToolDef where
  name : String
  description : Option String := none
  parameters : Option Json := none

inductive ToolChoice where
  | auto
  | function (name : String)
  deriving DecidableEq

/-- The chat/completions request fields the translator reads. -/
structure ChatRequest where
  model : String := ""
  messages : List ChatMsg := []
  tools : Option (List ToolDef) := none
  tool_choice : Option ToolChoice := none

/-- Items of the responses-format input array. -/
inductive InputItem where
  | message (role : String) (content : String)
  | functionCall (id : String) (name : String) (arguments : String)
  | functionCallOutput (call_id : String) (output : Option String)

/-- Forwarded responses-format tool definition. -/
structure RespTool where
  name : String
  description : String
  parameters : Json

/-- The responses-format request body fields the translator writes. -/
structure ResponsesBody where
  model : String
  input : List InputItem
  instructions : Option String
  tools : Option (List RespTool) := none
  tool_choice : Option ToolChoice := none

/-- String-keyed insertion-ordered map (JS Map over tool-call ids). -/
def lookupS (m : List (String × String)) (k : String) : Option String :=
  match m with
  | [] => none
  | (k', v) :: rest => if k' = k then some v else lookupS rest k

def setS (m : List (String × String)) (k v : String) : List (String × String) :=
  match m with
  | [] => [(k, v)]
  | (k', v') :: rest => if k' = k then (k, v) :: rest else (k', v') :: setS rest k v

/-- Id normalization of the first pass: prepend fc_ to a non-empty id that
does not already carry it. -/
def normId (id : String) : String :=
  if id ≠ "" ∧ ¬ id.startsWith "fc_" then "fc_" ++ id else id

/-- First pass of transformToResponsesFormat: record id → normalized id for
every assistant tool call. -/
def buildIdMap (messages : List ChatMsg) : List (String × String) :=
  messages.foldl (fun m msg =>
    if msg.role = "assistant" ∧ msg.tool_calls.isSome then
      (msg.tool_calls.getD []).foldl (fun m tc => setS m tc.id (normId tc.id)) m
    else m) []

/-- JS map.get(k) || fallback. -/
def jsGetOr (o : Option String) (fallback : String) : String :=
  match o with
  | some s => if s = "" then fallback else s
  | none => fallback

/-- JSON.stringify of non-string tool-result content (only its existence
matters to the claims; absent content stringifies to undefined). -/
def toolContentOf : ChatContent → Option String
  | ChatContent.str s => some s
  | ChatContent.items xs =>
    some ("[" ++ String.intercalate "," (xs.map (fun i => quoteJsonString i.1)) ++ "]")
  | ChatContent.absent => none

/-- Accumulator of the second pass. -/
structure XformAcc where
  input : List InputItem := []
  instructions : Option String := none
  added : List String := []

/-- Body of the assistant tool_calls loop: record the normalized id as added
and push a function_call item. -/
def addAssistantCall (idMap : List (String × String)) (acc : XformAcc) (tc : OpenAIToolCall) :
    XformAcc :=
  let nid := jsGetOr (lookupS idMap tc.id) tc.id
  { acc with
      added := addUnique acc.added nid,
      input := acc.input ++ [InputItem.functionCall nid tc.name tc.arguments] }

/-- Second pass of transformToResponsesFormat, one message at a time. -/
def xformStep (idMap : List (String × String)) (acc : XformAcc) (msg : ChatMsg) : XformAcc :=
  if msg.role = "system" then
    { acc with instructions :=
        match msg.content with
        | ChatContent.str s => some s
        | _ => none }
  else if msg.role = "user" then
    match msg.content with
    | ChatContent.str s =>
      { acc with input := acc.input ++ [InputItem.message "user" s] }
    | ChatContent.items xs =>
      { acc with input := acc.input ++
          (xs.filterMap (fun i =>
            if i.1 = "text" ∧ jsTruthy i.2 then
              some (InputItem.message "user" (i.2.getD ""))
            else none)) }
    | ChatContent.absent => acc
  else if msg.role = "assistant" then
    let acc :=
      match msg.content with
      | ChatContent.str s =>
        { acc with input := acc.input ++ [InputItem.message "assistant" s] }
      | _ => acc
    match msg.tool_calls with
    | some tcs => tcs.foldl (addAssistantCall idMap) acc
    | none => acc
  else if msg.role = "tool" then
    match msg.tool_call_id with
    | some tcid =>
      if tcid ≠ "" then
        let nid := jsGetOr (lookupS idMap tcid)
          (if tcid.startsWith "fc_" then tcid else "fc_" ++ tcid)
        if acc.added.contains nid then
          { acc with input := acc.input ++
              [InputItem.functionCallOutput nid (toolContentOf msg.content)] }
        else acc
      else acc
    | none => acc
  else acc

/-- Tool-definition filter of transformToResponsesFormat: keep only defs with
truthy name, truthy description and a parameters object. -/
def filterTools (tools : List ToolDef) : List RespTool :=
  tools.filterMap (fun t =>
    match t.description, t.parameters with
    | some d, some p => if t.name ≠ "" ∧ d ≠ "" then some ⟨t.name, d, p⟩ else none
    | _, _ => none)

/-- transformToResponsesFormat. -/
def transformToResponsesFormat (req : ChatRequest) : ResponsesBody :=
  let idMap := buildIdMap req.messages
  let acc := req.messages.foldl (xformStep idMap) {}
  let body : ResponsesBody :=
    { model := req.model, input := acc.input, instructions := acc.instructions }
  let body :=
    match req.tools with
    | some ts => { body with tools := some (filterTools ts) }
    | none => body
  if req.tool_choice.isSome ∧ body.tools.isSome then
    { body with tool_choice := req.tool_choice }
  else body

/-! Rate-limit backoff loop (fetchWithRateLimit in litellmClient.ts). -/

/-- A response as seen by the backoff loop: its status and the delay derived
from its retry-after header by parseRetryAfterDelayMs, when present. -/
structure RlResp where
  status : Nat
  retryAfterMs : Option Int := none

structure RlOpts where
  maxTotalDelayMs : Int := 120000
  initialDelayMs : Int := 500

/-- The while loop of fetchWithRateLimit over the successive responses that
fetchWithRetry produces; returns the final response together with the
cumulative delay slept, or none when the supplied response list runs out. -/
def rateLimitLoop (opts : RlOpts) : List RlResp → Int → Nat → Option (RlResp × Int)
  | [], _, _ => none
  | r :: rest, cumulative, attempt =>
    if r.status ≠ 429 then some (r, cumulative)
    else
      let remaining := opts.maxTotalDelayMs - cumulative
      if remaining ≤ 0 then some (r, cumulative)
      else
        let chosenDelay := r.retryAfterMs.getD (opts.initialDelayMs * 2 ^ attempt)
        let nextDelayMs := min (max 1 chosenDelay) remaining
        rateLimitLoop opts rest (cumulative + nextDelayMs) (attempt + 1)

/-- fetchWithRateLimit entry point (cumulative delay and attempt start at 0). -/
def fetchWithRateLimit (opts : RlOpts) (responses : List RlResp) : Option (RlResp × Int) :=
  rateLimitLoop opts responses 0 0

/-! Budget trimming (trimMessagesToFitBudget in tokenUtils.ts). -/

/-- VS Code chat message role as compared by trimMessagesToFitBudget. -/
inductive VSRole where
  | user
  | assistant
  | other
  deriving DecidableEq

inductive VSPart where
  | text (s : String)
  | nontext
  deriving DecidableEq

structure VSMsg where
  role : VSRole
  content : List VSPart
  deriving DecidableEq

/-- estimateSingleMessageTokens: ceil(length/4) summed over text parts. -/
def estimateSingleMessageTokens (m : VSMsg) : Nat :=
  m.content.foldl (fun total p =>
    match p with
    | VSPart.text s => total + (s.length + 3) / 4
    | VSPart.nontext => total) 0

def isSystemLike (m : VSMsg) : Bool :=
  m.role ≠ VSRole.user ∧ m.role ≠ VSRole.assistant

/-- The first loop of trimMessagesToFitBudget: pull out the first system-like
message, keep everything else in order. -/
def splitSystem (messages : List VSMsg) : Option VSMsg × List VSMsg :=
  match messages with
  | [] => (none, [])
  | m :: rest =>
    if isSystemLike m then (some m, rest)
    else
      let r := splitSystem rest
      (r.1, m :: r.2)

/-- The selection loop, scanning the non-system messages newest first.  The
relaxed check (selected.length still at its base value) admits the newest
message even when over budget. -/
def trimPick (budget : Int) : List VSMsg → Int → Bool → List VSMsg
  | [], _, _ => []
  | m :: rest, used, isFirst =>
    let t := (estimateSingleMessageTokens m : Int)
    if used + t ≤ budget ∨ isFirst then
      trimPick budget rest (used + t) false ++ [m]
    else []

/-- The safety limit: max(1, maxInputTokens), reduced by the 2% Anthropic
margin when applicable. -/
def trimLimit (maxInputTokens : Nat) (anthropic : Bool) : Nat :=
  if anthropic then max 1 (max 1 maxInputTokens * 98 / 100) else max 1 maxInputTokens

/-- Selection part of trimMessagesToFitBudget once the budget is known: keep
the first system-like message (erroring when it alone exceeds the budget),
then scan the rest newest first. -/
def trimCore (messages : List VSMsg) (budget : Int) : Except String (List VSMsg) :=
  match splitSystem messages with
  | (some sys, remaining) =>
    if budget < (estimateSingleMessageTokens sys : Int) then
      Except.error "Message exceeds token limit."
    else
      Except.ok (sys :: trimPick budget remaining.reverse
        (estimateSingleMessageTokens sys : Int) true)
  | (none, remaining) => Except.ok (trimPick budget remaining.reverse 0 true)

/-- trimMessagesToFitBudget.  The token limit and the Anthropic safety margin
are precomputed from the model information exactly as in the source. -/
def trimMessagesToFitBudget (messages : List VSMsg) (toolTokenCount : Nat)
    (maxInputTokens : Nat) (anthropic : Bool) : Except String (List VSMsg) :=
  let budget : Int := (trimLimit maxInputTokens anthropic : Int) - (toolTokenCount : Int)
  if budget ≤ 0 then Except.error "Message exceeds token limit."
  else trimCore messages budget

/-! Shared scenario material for the theorems. -/

/-- A fixed generator instance for closed scenario statements. -/
def sampleGen : IdGen := ⟨"gen_call", "gen_text"⟩

/-- A shape-A frame carrying only a text content delta. -/
def contentFrame (s : String) : Frame :=
  Frame.choices (some { content := some s, tool_calls := none }) none

/-- A shape-A frame carrying a single tool-call fragment. -/
def fragFrame (tc : Fragment) : Frame :=
  Frame.choices (some { content := none, tool_calls := some [tc] }) none

/-- A shape-A frame carrying only a finish_reason. -/
def finishFrame (r : String) : Frame := Frame.choices none (some r)

/-- The repetition-guard scenario: 21 identical "x" deltas, then a "y" delta. -/
def repetitionStream : List Frame :=
  List.replicate 21 (contentFrame "x") ++ [contentFrame "y"]

/-- C2 counterexample helper: the per-frame outputs of the repetition
scenario. -/
def repetitionOutputs (gen : IdGen) : List (List Part) :=
  (runFrames gen initSt repetitionStream).1

set_option maxHeartbeats 40000000 in
/-- C2 — COUNTEREXAMPLE.  The claim says that of 21 consecutive identical "x"
deltas only the first is emitted and deltas 2–21 are all suppressed.  On the
code, the run emits the first twenty "x" deltas (frames 1–20 each produce a
text part) and suppresses only delta 21; so delta 2, for instance, is emitted,
contradicting the claim. -/
theorem C2_counterexample :
    repetitionOutputs sampleGen =
      List.replicate 20 [Part.text "x"] ++ [[], [Part.text "y"]] := by
  rfl

set_option maxHeartbeats 80000000 in
/-- C2 (amended) — for a stream of 21 consecutive identical text deltas "x",
deltas 1 through 20 are emitted and only delta 21 is suppressed by the
repetition guard (the guard counts previous identical deltas, suppressing once
20 identical deltas have already arrived); a differing delta afterward resets
the counter and is emitted. -/
theorem C2_thm :
    (runFrames sampleGen initSt repetitionStream).1 =
      List.replicate 20 [Part.text "x"] ++ [[], [Part.text "y"]] ∧
    (runFrames sampleGen initSt repetitionStream).2.1.repeatCount = 0 := by
  exact ⟨rfl, rfl⟩

/-- The all-invalid tool-definition request of the C8 counterexample: one tool
definition with an empty name, plus a tool_choice. -/
def invalidToolReq : ChatRequest :=
  { tools := some [{ name := "", description := some "d", parameters := some (Json.obj []) }],
    tool_choice := some ToolChoice.auto }

/-- C8 — COUNTEREXAMPLE.  The claim says tool_choice is forwarded only if the
filtered tool list is non-empty, and in particular that it is dropped when
every supplied definition is invalid.  On the code, a request whose single
tool definition has an empty name yields an empty filtered tool list, yet
tool_choice is still forwarded (the presence check is on the tools array, and
an empty array is truthy in JavaScript). -/
theorem C8_counterexample :
    (transformToResponsesFormat invalidToolReq).tools = some [] ∧
    (transformToResponsesFormat invalidToolReq).tool_choice = some ToolChoice.auto := by
  exact ⟨rfl, rfl⟩

/-- C8 (amended) — tool_choice is forwarded exactly when the request supplies
a tool_choice and supplies a tools array at all, regardless of whether the
filtered tool-definition list is empty: filtering never suppresses
tool_choice. -/
theorem C8_thm (req : ChatRequest) :
    (transformToResponsesFormat req).tool_choice =
      if req.tool_choice.isSome ∧ req.tools.isSome then req.tool_choice else none := by
  unfold transformToResponsesFormat
  cases h1 : req.tools <;> cases h2 : req.tool_choice <;> simp [h1, h2]

/-! C3: cumulative rate-limit delay bound. -/

theorem rateLimitLoop_le (opts : RlOpts) (rs : List RlResp) :
    ∀ (cum : Int) (att : Nat) (r : RlResp) (c : Int),
      cum ≤ max opts.maxTotalDelayMs 0 →
      rateLimitLoop opts rs cum att = some (r, c) → c ≤ max opts.maxTotalDelayMs 0 := by
  induction rs with
  | nil =>
    intro cum att r c hc h
    simp [rateLimitLoop] at h
  | cons hd tl ih =>
    intro cum att r c hc h
    simp only [rateLimitLoop] at h
    by_cases h1 : hd.status ≠ 429
    · rw [if_pos h1] at h
      cases h
      exact hc
    · rw [if_neg h1] at h
      by_cases h2 : opts.maxTotalDelayMs - cum ≤ 0
      · rw [if_pos h2] at h
        cases h
        exact hc
      · rw [if_neg h2] at h
        refine ih _ _ _ _ ?_ h
        have hmin : min (max 1 (hd.retryAfterMs.getD (opts.initialDelayMs * 2 ^ att)))
            (opts.maxTotalDelayMs - cum) ≤ opts.maxTotalDelayMs - cum :=
          min_le_right _ _
        have hmax : opts.maxTotalDelayMs ≤ max opts.maxTotalDelayMs 0 := le_max_left _ _
        omega

/-- C3 — for one outbound call, the cumulative delay slept by the rate-limit
backoff across all 429 responses never exceeds the configured maximum
cumulative delay (each delay is clamped to the remaining allowance), and once
the allowance is exhausted a further 429 response is returned as-is, with no
additional delay. -/
theorem C3_thm :
    (∀ (opts : RlOpts) (responses : List RlResp) (r : RlResp) (c : Int),
        fetchWithRateLimit opts responses = some (r, c) →
        c ≤ max opts.maxTotalDelayMs 0) ∧
    (∀ (opts : RlOpts) (r : RlResp) (rest : List RlResp) (cum : Int) (att : Nat),
        r.status = 429 → opts.maxTotalDelayMs - cum ≤ 0 →
        rateLimitLoop opts (r :: rest) cum att = some (r, cum)) := by
  constructor
  · intro opts responses r c h
    exact rateLimitLoop_le opts responses 0 0 r c (le_max_right _ _) h
  · intro opts r rest cum att h1 h2
    simp [rateLimitLoop, h1, h2]

/-- Concrete responses for the C3 witness: two rate-limited responses, then a
success. -/
def rlScenario : List RlResp := [⟨429, none⟩, ⟨429, none⟩, ⟨200, none⟩]

/-- C3 — WITNESS: on the default options (120000 ms budget), the concrete
scenario accumulates 500 + 1000 = 1500 ms of delay and the theorem bounds it
by the budget. -/
theorem C3_witness :
    fetchWithRateLimit {} rlScenario = some (⟨200, none⟩, 1500) ∧
    (1500 : Int) ≤ max (RlOpts.maxTotalDelayMs {}) 0 := by
  refine ⟨rfl, ?_⟩
  exact C3_thm.1 {} rlScenario ⟨200, none⟩ 1500 rfl

/-! C4: strict flush raises on invalid buffered arguments, the done-sentinel
flush stays silent. -/

theorem lookupA_mem (m : List (Nat × Buf)) (k : Nat) (b : Buf) :
    lookupA m k = some b → (k, b) ∈ m := by
  induction m with
  | nil => intro h; simp [lookupA] at h
  | cons hd tl ih =>
    obtain ⟨k', v⟩ := hd
    intro h
    rw [lookupA] at h
    by_cases hk : k' = k
    · rw [if_pos hk] at h
      cases h
      subst hk
      exact List.mem_cons_self _ _
    · rw [if_neg hk] at h
      exact List.mem_cons_of_mem _ (ih h)

theorem flushEntries_strict_threw (gen : IdGen) (entries : List (Nat × Buf)) :
    ∀ (st : St) (i : Nat) (b : Buf), (i, b) ∈ entries →
      tryParseJSONObject b.args = none →
      (flushEntries gen true entries st).2.2 = true := by
  induction entries with
  | nil => intro st i b hm; simp at hm
  | cons hd tl ih =>
    intro st i b hm hbad
    obtain ⟨k, buf⟩ := hd
    rw [flushEntries]
    cases hp : tryParseJSONObject buf.args with
    | none => simp
    | some value =>
      simp only
      rcases List.mem_cons.mp hm with heq | hmem
      · cases heq
        rw [hp] at hbad
        cases hbad
      · exact ih _ i b hmem hbad

theorem flushEntries_lenient (gen : IdGen) (entries : List (Nat × Buf)) :
    ∀ (st : St),
      (flushEntries gen false entries st).2.2 = false ∧
      (flushEntries gen false entries st).1.length =
        (entries.filter (fun e => (tryParseJSONObject e.2.args).isSome)).length := by
  induction entries with
  | nil => intro st; simp [flushEntries]
  | cons hd tl ih =>
    intro st
    obtain ⟨k, buf⟩ := hd
    rw [flushEntries]
    cases hp : tryParseJSONObject buf.args with
    | none => simpa [hp] using ih _
    | some value => simpa [hp] using ih _

theorem flushEntries_textToolActive (gen : IdGen) (strict : Bool)
    (entries : List (Nat × Buf)) :
    ∀ (st : St), (flushEntries gen strict entries st).2.1.textToolActive = st.textToolActive := by
  induction entries with
  | nil => intro st; simp [flushEntries]
  | cons hd tl ih =>
    intro st
    obtain ⟨k, buf⟩ := hd
    rw [flushEntries]
    cases hp : tryParseJSONObject buf.args with
    | none =>
      cases strict <;> simp [ih]
    | some value =>
      simpa using ih _

/-- C4 — for a buffered indexed tool call whose accumulated arguments do not
parse as a JSON object, a flush triggered by a finish_reason frame ("stop" or
"tool_calls") raises the fatal invalid-arguments error, while the flush
triggered by the [DONE] sentinel raises nothing and silently emits no part for
the invalid buffer (its emitted parts are exactly those of the buffers whose
arguments do parse). -/
theorem C4_thm (gen : IdGen) (st : St) (i : Nat) (b : Buf)
    (hmem : lookupA st.toolCallBuffers i = some b)
    (hbad : tryParseJSONObject b.args = none) :
    ((processFrame gen st (finishFrame "stop")).threw = true ∧
     (processFrame gen st (finishFrame "tool_calls")).threw = true) ∧
    ((handleDone gen st).2.2 = false ∧
     (st.textToolActive = none →
       (handleDone gen st).1.length =
         (st.toolCallBuffers.filter (fun e => (tryParseJSONObject e.2.args).isSome)).length)) := by
  have hm := lookupA_mem _ _ _ hmem
  have hthrew := flushEntries_strict_threw gen st.toolCallBuffers st i b hm hbad
  have hlen := flushEntries_lenient gen st.toolCallBuffers st
  constructor
  · constructor
    · simp only [processFrame, finishFrame, processChoice, processChoiceDelta, processChoiceContent, flushToolCallBuffers]
      simpa using hthrew
    · simp only [processFrame, finishFrame, processChoice, processChoiceDelta, processChoiceContent, flushToolCallBuffers]
      simpa using hthrew
  · constructor
    · simp only [handleDone, flushToolCallBuffers]
      simpa [flushActiveTextToolCall] using hlen.1
    · intro hact
      have hpres := flushEntries_textToolActive gen false st.toolCallBuffers st
      simp only [handleDone, flushToolCallBuffers]
      rw [flushActiveTextToolCall]
      rw [hpres, hact]
      simpa using hlen.2

/-- The concrete invalid-buffer state of the C4 witness: index 0 holds the
unparsable argument accumulation "{". -/
def stBad : St := { toolCallBuffers := [(0, { name := some "t", args := "\x7b" })] }

/-- C4 — WITNESS: at the concrete state stBad, both finish-triggered flushes
throw and the done-triggered flush is silent and emits nothing. -/
theorem C4_witness :
    ((processFrame sampleGen stBad (finishFrame "stop")).threw = true ∧
     (processFrame sampleGen stBad (finishFrame "tool_calls")).threw = true) ∧
    ((handleDone sampleGen stBad).2.2 = false ∧
     (stBad.textToolActive = none →
       (handleDone sampleGen stBad).1.length =
         (stBad.toolCallBuffers.filter
           (fun e => (tryParseJSONObject e.2.args).isSome)).length)) :=
  C4_thm sampleGen stBad 0 { name := some "t", args := "\x7b" } rfl rfl

/-! C5: which system message determines the instructions field. -/

/-- The instructions value contributed by one system message: its text when
the content is a string, otherwise none. -/
def contentAsInstr : ChatContent → Option String
  | ChatContent.str s => some s
  | _ => none

theorem foldl_addAssistantCall_instructions (idMap : List (String × String))
    (tcs : List OpenAIToolCall) :
    ∀ acc : XformAcc, (tcs.foldl (addAssistantCall idMap) acc).instructions = acc.instructions := by
  induction tcs with
  | nil => intro acc; rfl
  | cons hd tl ih => intro acc; rw [List.foldl_cons, ih]; rfl

theorem xformStep_instructions (idMap : List (String × String)) (acc : XformAcc) (m : ChatMsg) :
    (xformStep idMap acc m).instructions =
      if m.role = "system" then contentAsInstr m.content else acc.instructions := by
  unfold xformStep
  by_cases h1 : m.role = "system"
  · rw [if_pos h1, if_pos h1]
    cases m.content <;> rfl
  · rw [if_neg h1, if_neg h1]
    by_cases h2 : m.role = "user"
    · rw [if_pos h2]
      cases m.content <;> rfl
    · rw [if_neg h2]
      by_cases h3 : m.role = "assistant"
      · rw [if_pos h3]
        cases m.tool_calls with
        | none => cases m.content <;> rfl
        | some tcs =>
          cases m.content <;>
            simp only [foldl_addAssistantCall_instructions]
      · rw [if_neg h3]
        by_cases h4 : m.role = "tool"
        · rw [if_pos h4]
          cases m.tool_call_id with
          | none => rfl
          | some tcid =>
            by_cases h5 : tcid ≠ ""
            · simp only [h5]
              split
              all_goals first
              | rfl
              | (split
                 all_goals first
                 | rfl
                 | (split <;> rfl))
            · simp [h5]
        · rw [if_neg h4]

theorem foldl_xformStep_instructions (idMap : List (String × String)) (msgs : List ChatMsg) :
    ∀ acc : XformAcc,
      (msgs.foldl (xformStep idMap) acc).instructions =
        msgs.foldl (fun i m => if m.role = "system" then contentAsInstr m.content else i)
          acc.instructions := by
  induction msgs with
  | nil => intro acc; rfl
  | cons hd tl ih =>
    intro acc
    rw [List.foldl_cons, List.foldl_cons, ih, xformStep_instructions]

theorem foldl_instr_no_system (post : List ChatMsg) :
    ∀ v : Option String, (∀ m ∈ post, m.role ≠ "system") →
      post.foldl (fun i m => if m.role = "system" then contentAsInstr m.content else i) v = v := by
  induction post with
  | nil => intro v _; rfl
  | cons hd tl ih =>
    intro v h
    rw [List.foldl_cons, if_neg (h hd (List.mem_cons_self _ _))]
    exact ih v (fun m hm => h m (List.mem_cons_of_mem _ hm))

theorem transform_instructions (req : ChatRequest) :
    (transformToResponsesFormat req).instructions =
      (req.messages.foldl (xformStep (buildIdMap req.messages)) {}).instructions := by
  unfold transformToResponsesFormat
  cases req.tools <;>
    by_cases h : req.tool_choice.isSome <;>
      simp [h]

/-- C5 — COUNTEREXAMPLE.  The claim says the FIRST system message's text
becomes instructions and that subsequent system messages are ignored.  On the
code, translating [system "A", system "B"] yields instructions "B", not "A":
every system message overwrites the instructions value. -/
theorem C5_counterexample :
    (transformToResponsesFormat
      { messages := [{ role := "system", content := ChatContent.str "A" },
                     { role := "system", content := ChatContent.str "B" }] }).instructions =
      some "B" ∧ (some "B" : Option String) ≠ some "A" := by
  exact ⟨rfl, by simp⟩

/-- C5 (amended) — when translating to shape B, the LAST system-role message
determines the instructions field: its text when its content is a string, and
no instructions entry when its content is non-text; each system message
overwrites the value left by earlier ones (system messages still contribute no
input items). -/
theorem C5_thm (req : ChatRequest) (pre post : List ChatMsg) (sys : ChatMsg)
    (hmsgs : req.messages = pre ++ sys :: post)
    (hsys : sys.role = "system")
    (hpost : ∀ m ∈ post, m.role ≠ "system") :
    (transformToResponsesFormat req).instructions = contentAsInstr sys.content := by
  rw [transform_instructions, foldl_xformStep_instructions, hmsgs, List.foldl_append,
    List.foldl_cons, if_pos hsys]
  exact foldl_instr_no_system post _ hpost

/-- C5 — WITNESS: with system "A" followed by system "B", the translation's
instructions value is "B". -/
theorem C5_witness :
    (transformToResponsesFormat
      { messages := [{ role := "system", content := ChatContent.str "A" },
                     { role := "system", content := ChatContent.str "B" }] }).instructions =
      contentAsInstr (ChatContent.str "B") :=
  C5_thm _ [{ role := "system", content := ChatContent.str "A" }] []
    { role := "system", content := ChatContent.str "B" } rfl rfl (by simp)

/-! C6 / C7: tool-call id normalization and orphan tool-result dropping. -/

theorem transform_input (req : ChatRequest) :
    (transformToResponsesFormat req).input =
      (req.messages.foldl (xformStep (buildIdMap req.messages)) {}).input := by
  unfold transformToResponsesFormat
  cases req.tools <;>
    by_cases h : req.tool_choice.isSome <;>
      simp [h]

theorem normId_ne_empty (id : String) (h : id ≠ "") : normId id ≠ "" := by
  unfold normId
  split
  · intro contra
    have hlen := congrArg String.length contra
    simp [String.length_append] at hlen
    exact absurd hlen.1 (by decide)
  · exact h

/-- C6 — an assistant tool call with a non-empty id, followed by a tool-result
message referencing the same id, translates to a function_call item and a
function_call_output item that both carry the normalized id; the
normalization prepends the canonical fc_ prefix exactly when the id does not
already carry it. -/
theorem C6_thm (id nm args outc : String) (hid : id ≠ "") :
    (transformToResponsesFormat
      { messages := [{ role := "assistant", tool_calls := some [⟨id, nm, args⟩] },
                     { role := "tool", content := ChatContent.str outc,
                       tool_call_id := some id }] }).input =
      [InputItem.functionCall (normId id) nm args,
       InputItem.functionCallOutput (normId id) (some outc)] ∧
    (¬ id.startsWith "fc_" → normId id = "fc_" ++ id) := by
  have hne := normId_ne_empty id hid
  constructor
  · rw [transform_input]
    simp [buildIdMap, xformStep, addAssistantCall, setS, lookupS, jsGetOr, hid, hne,
      addUnique, toolContentOf]
  · intro h
    simp [normId, hid, h]

/-- C6 — WITNESS: the id "call1" yields fc_call1 on both the function_call
item and the function_call_output item. -/
theorem C6_witness :
    (transformToResponsesFormat
      { messages := [{ role := "assistant", tool_calls := some [⟨"call1", "t", "{}"⟩] },
                     { role := "tool", content := ChatContent.str "ok",
                       tool_call_id := some "call1" }] }).input =
      [InputItem.functionCall (normId "call1") "t" "{}",
       InputItem.functionCallOutput (normId "call1") (some "ok")] ∧
    (¬ "call1".startsWith "fc_" → normId "call1" = "fc_" ++ "call1") :=
  C6_thm "call1" "t" "{}" "ok" (by simp)

theorem mem_addUnique (l : List String) (x y : String) :
    x ∈ addUnique l y → x ∈ l ∨ x = y := by
  unfold addUnique
  split
  · exact fun h => Or.inl h
  · intro h
    rcases List.mem_append.mp h with h | h
    · exact Or.inl h
    · exact Or.inr (List.mem_singleton.mp h)

theorem foldl_addAssistantCall_no_output (idMap : List (String × String))
    (tcs : List OpenAIToolCall) (n : String)
    (htcs : ∀ tc ∈ tcs, jsGetOr (lookupS idMap tc.id) tc.id ≠ n) :
    ∀ acc : XformAcc, ¬ n ∈ acc.added →
      (∀ out, InputItem.functionCallOutput n out ∉ acc.input) →
      ¬ n ∈ (tcs.foldl (addAssistantCall idMap) acc).added ∧
      ∀ out, InputItem.functionCallOutput n out ∉ (tcs.foldl (addAssistantCall idMap) acc).input := by
  induction tcs with
  | nil => intro acc h1 h2; exact ⟨h1, h2⟩
  | cons tc tl ih =>
    intro acc h1 h2
    rw [List.foldl_cons]
    refine ih (fun tc' h => htcs tc' (List.mem_cons_of_mem _ h)) _ ?_ ?_
    · intro hmem
      rcases mem_addUnique _ _ _ hmem with h | h
      · exact h1 h
      · exact htcs tc (List.mem_cons_self _ _) h.symm
    · intro out hmem
      rcases List.mem_append.mp hmem with h | h
      · exact h2 out h
      · simp at h

theorem xformStep_no_output (idMap : List (String × String)) (acc : XformAcc) (msg : ChatMsg)
    (n : String)
    (hmsg : msg.role = "assistant" → ∀ tcs, msg.tool_calls = some tcs →
      ∀ tc ∈ tcs, jsGetOr (lookupS idMap tc.id) tc.id ≠ n)
    (hadded : ¬ n ∈ acc.added)
    (hout : ∀ out, InputItem.functionCallOutput n out ∉ acc.input) :
    ¬ n ∈ (xformStep idMap acc msg).added ∧
    ∀ out, InputItem.functionCallOutput n out ∉ (xformStep idMap acc msg).input := by
  unfold xformStep
  by_cases h1 : msg.role = "system"
  · simp only [h1, if_pos]
    exact ⟨hadded, hout⟩
  · rw [if_neg h1]
    by_cases h2 : msg.role = "user"
    · rw [if_pos h2]
      cases hc : msg.content with
      | str s =>
        refine ⟨hadded, fun out hmem => ?_⟩
        rcases List.mem_append.mp hmem with h | h
        · exact hout out h
        · simp at h
      | items xs =>
        refine ⟨hadded, fun out hmem => ?_⟩
        rcases List.mem_append.mp hmem with h | h
        · exact hout out h
        · rcases List.mem_filterMap.mp h with ⟨i, _, hi⟩
          split at hi <;> simp_all
      | absent => exact ⟨hadded, hout⟩
    · rw [if_neg h2]
      by_cases h3 : msg.role = "assistant"
      · rw [if_pos h3]
        have step1 : ∀ acc2 : XformAcc, ¬ n ∈ acc2.added →
            (∀ out, InputItem.functionCallOutput n out ∉ acc2.input) →
            ¬ n ∈ (match msg.tool_calls with
                | some tcs => tcs.foldl (addAssistantCall idMap) acc2
                | none => acc2).added ∧
            ∀ out, InputItem.functionCallOutput n out ∉ (match msg.tool_calls with
                | some tcs => tcs.foldl (addAssistantCall idMap) acc2
                | none => acc2).input := by
          intro acc2 ha hb
          cases htc : msg.tool_calls with
          | none => exact ⟨ha, hb⟩
          | some tcs =>
            exact foldl_addAssistantCall_no_output idMap tcs n (hmsg h3 tcs htc) acc2 ha hb
        cases hc : msg.content with
        | str s =>
          refine step1 _ hadded (fun out hmem => ?_)
          rcases List.mem_append.mp hmem with h | h
          · exact hout out h
          · simp at h
        | items xs => exact step1 _ hadded hout
        | absent => exact step1 _ hadded hout
      · rw [if_neg h3]
        by_cases h4 : msg.role = "tool"
        · rw [if_pos h4]
          cases htc : msg.tool_call_id with
          | none => exact ⟨hadded, hout⟩
          | some tcid =>
            dsimp only
            by_cases h5 : tcid ≠ ""
            · rw [if_pos h5]
              by_cases h6 : acc.added.contains (jsGetOr (lookupS idMap tcid)
                  (if tcid.startsWith "fc_" then tcid else "fc_" ++ tcid)) = true
              · rw [if_pos h6]
                have hmemadd : jsGetOr (lookupS idMap tcid)
                    (if tcid.startsWith "fc_" then tcid else "fc_" ++ tcid) ∈ acc.added := by
                  simpa using h6
                refine ⟨hadded, fun out hmem => ?_⟩
                rcases List.mem_append.mp hmem with h | h
                · exact hout out h
                · rw [List.mem_singleton] at h
                  rw [InputItem.functionCallOutput.injEq] at h
                  rw [h.1] at hadded
                  exact hadded hmemadd
              · rw [if_neg h6]
                exact ⟨hadded, hout⟩
            · rw [if_neg h5]
              exact ⟨hadded, hout⟩
        · rw [if_neg h4]
          exact ⟨hadded, hout⟩

theorem foldl_xformStep_no_output (idMap : List (String × String)) (msgs : List ChatMsg)
    (n : String)
    (hmsgs : ∀ msg ∈ msgs, msg.role = "assistant" → ∀ tcs, msg.tool_calls = some tcs →
      ∀ tc ∈ tcs, jsGetOr (lookupS idMap tc.id) tc.id ≠ n) :
    ∀ acc : XformAcc, ¬ n ∈ acc.added →
      (∀ out, InputItem.functionCallOutput n out ∉ acc.input) →
      ∀ out, InputItem.functionCallOutput n out ∉ (msgs.foldl (xformStep idMap) acc).input := by
  induction msgs with
  | nil => intro acc _ hout; exact hout
  | cons hd tl ih =>
    intro acc hadded hout
    rw [List.foldl_cons]
    have step := xformStep_no_output idMap acc hd n (hmsgs hd (List.mem_cons_self _ _))
      hadded hout
    exact ih (fun m hm => hmsgs m (List.mem_cons_of_mem _ hm)) _ step.1 step.2

/-- C7 — a tool-result message whose (normalized) tool_call_id matches no
assistant tool call in the same translated request contributes no
function_call_output item: for any id that no assistant tool call of the
request normalizes to, the translated input contains no function_call_output
with that call_id (the tool result is silently dropped; translation is total
and never errors). -/
theorem C7_thm (req : ChatRequest) (n : String)
    (h : ∀ msg ∈ req.messages, msg.role = "assistant" → ∀ tcs, msg.tool_calls = some tcs →
      ∀ tc ∈ tcs, jsGetOr (lookupS (buildIdMap req.messages) tc.id) tc.id ≠ n) :
    ∀ out, InputItem.functionCallOutput n out ∉ (transformToResponsesFormat req).input := by
  rw [transform_input]
  exact foldl_xformStep_no_output _ _ n h {} (by simp) (by simp)

/-- C7 — WITNESS: a lone tool-result message referencing the unmatched id
"missing" produces no function_call_output item (in particular none with the
normalized call_id fc_missing). -/
theorem C7_witness :
    InputItem.functionCallOutput "fc_missing" (some "result") ∉
      (transformToResponsesFormat
        { messages := [{ role := "tool", content := ChatContent.str "result",
                         tool_call_id := some "missing" }] }).input :=
  C7_thm _ "fc_missing" (by intro msg hm h1; simp at hm; rw [hm] at h1; simp at h1)
    (some "result")

/-! C9: shape of the BudgetTrimmer output. -/

theorem trimPick_suffix (budget : Int) (l : List VSMsg) :
    ∀ (used : Int) (first : Bool), (trimPick budget l used first).IsSuffix l.reverse := by
  induction l with
  | nil => intro used first; simp [trimPick]
  | cons m rest ih =>
    intro used first
    rw [trimPick]
    split
    · obtain ⟨t, ht⟩ := ih (used + (estimateSingleMessageTokens m : Int)) false
      exact ⟨t, by rw [List.reverse_cons, ← List.append_assoc, ← ht]⟩
    · exact List.nil_suffix

theorem splitSystem_remaining_sublist (messages : List VSMsg) :
    List.Sublist (splitSystem messages).2 messages := by
  induction messages with
  | nil => simp [splitSystem]
  | cons m rest ih =>
    rw [splitSystem]
    split
    · exact List.sublist_cons_self _ _
    · exact List.Sublist.cons₂ m ih

/-- First trimmer counterexample message: a user message ahead of the
system-like message. -/
def trimMsgA : VSMsg := ⟨VSRole.user, [VSPart.text "aaaa"]⟩

/-- The system-like message of the trimmer counterexample, second in input. -/
def trimMsgS : VSMsg := ⟨VSRole.other, [VSPart.text "ssss"]⟩

/-- Last trimmer counterexample message. -/
def trimMsgB : VSMsg := ⟨VSRole.user, [VSPart.text "bbbb"]⟩

/-- C9 — COUNTEREXAMPLE.  The claim says the BudgetTrimmer output is always a
subsequence of its input in original order, including any kept system-like
message.  On the input [user "aaaa", system-like "ssss", user "bbbb"] with an
ample budget, the code returns [system, user "aaaa", user "bbbb"]: the
system-like message is moved in front of a user message that preceded it in
the input, so the output is not a sublist of the input. -/
theorem C9_counterexample :
    trimMessagesToFitBudget [trimMsgA, trimMsgS, trimMsgB] 0 100 false =
      Except.ok [trimMsgS, trimMsgA, trimMsgB] ∧
    ¬ List.Sublist [trimMsgS, trimMsgA, trimMsgB] [trimMsgA, trimMsgS, trimMsgB] := by
  refine ⟨rfl, ?_⟩
  intro hsub
  have := hsub.eq_of_length (by rfl)
  have hAS : trimMsgS = trimMsgA := by
    have := congrArg (fun l => l.head?) this
    simpa using this
  exact absurd (congrArg VSMsg.role hAS) (by decide)

/-- C9 (amended) — on every successful trim, the kept non-system messages are
a suffix of the input with its first system-like message removed, in original
relative order (hence a sublist of the input); the kept first system-like
message, if any, is placed at the front of the output.  The output is
therefore an order-preserving subsequence of the input exactly when no kept
message precedes the first system-like message in the input. -/
theorem C9_thm (messages : List VSMsg) (toolTokenCount maxInputTokens : Nat) (anthropic : Bool)
    (out : List VSMsg)
    (h : trimMessagesToFitBudget messages toolTokenCount maxInputTokens anthropic =
      Except.ok out) :
    ∃ suffix, out = (splitSystem messages).1.toList ++ suffix ∧
      suffix.IsSuffix (splitSystem messages).2 ∧ List.Sublist suffix messages := by
  unfold trimMessagesToFitBudget at h
  by_cases hb : (trimLimit maxInputTokens anthropic : Int) - (toolTokenCount : Int) ≤ 0
  · rw [if_pos hb] at h
    cases h
  · rw [if_neg hb] at h
    unfold trimCore at h
    rcases hsp : splitSystem messages with ⟨sys?, remaining⟩
    rw [hsp] at h
    have hsub : List.Sublist remaining messages := by
      have := splitSystem_remaining_sublist messages
      rw [hsp] at this
      exact this
    cases sys? with
    | none =>
      dsimp only at h
      simp only [Except.ok.injEq] at h
      subst h
      have hsfx := trimPick_suffix ((trimLimit maxInputTokens anthropic : Int) -
        (toolTokenCount : Int)) remaining.reverse 0 true
      rw [List.reverse_reverse] at hsfx
      exact ⟨_, by simp, hsfx, hsfx.sublist.trans hsub⟩
    | some sys =>
      dsimp only at h
      by_cases hs : (trimLimit maxInputTokens anthropic : Int) - (toolTokenCount : Int) <
          (estimateSingleMessageTokens sys : Int)
      · rw [if_pos hs] at h
        cases h
      · rw [if_neg hs] at h
        simp only [Except.ok.injEq] at h
        subst h
        have hsfx := trimPick_suffix ((trimLimit maxInputTokens anthropic : Int) -
          (toolTokenCount : Int)) remaining.reverse
          (estimateSingleMessageTokens sys : Int) true
        rw [List.reverse_reverse] at hsfx
        exact ⟨_, by simp, hsfx, hsfx.sublist.trans hsub⟩

/-- C9 — WITNESS: the amended shape at the concrete counterexample input. -/
theorem C9_witness :
    ∃ suffix,
      [trimMsgS, trimMsgA, trimMsgB] =
        (splitSystem [trimMsgA, trimMsgS, trimMsgB]).1.toList ++ suffix ∧
      suffix.IsSuffix (splitSystem [trimMsgA, trimMsgS, trimMsgB]).2 ∧
      List.Sublist suffix [trimMsgA, trimMsgS, trimMsgB] :=
  C9_thm [trimMsgA, trimMsgS, trimMsgB] 0 100 false [trimMsgS, trimMsgA, trimMsgB] rfl

/-! C1: exactly-once early emission of an indexed buffered tool call. -/

/-- Pure accumulation of a fragment sequence into one buffer. -/
def accBuf (frags : List Fragment) : Buf := frags.foldl updBuf {}

/-- Early-emission condition of tryEmitBufferedToolCall: a truthy name and
arguments that parse as a JSON object. -/
def emitReady (b : Buf) : Bool := jsTruthy b.name && (tryParseJSONObject b.args).isSome

/-- The state after accumulating the given fragments for index i without any
emission yet. -/
def bufSt (i : Nat) (frags : List Fragment) : St :=
  match frags with
  | [] => initSt
  | _ => { toolCallBuffers := [(i, accBuf frags)] }

/-- The state after the call at index i has been emitted: empty buffers, the
index marked completed. -/
def doneSt (i : Nat) : St := { completedToolCallIndices := [i] }

theorem accBuf_append (frags : List Fragment) (tc : Fragment) :
    accBuf (frags ++ [tc]) = updBuf (accBuf frags) tc := by
  simp [accBuf, List.foldl_append]

theorem processToolCallFragment_pre (gen : IdGen) (i : Nat) (frags : List Fragment)
    (tc : Fragment) (hidx : effIdx tc = i)
    (hnr : emitReady (accBuf (frags ++ [tc])) = false) :
    processToolCallFragment gen (bufSt i frags) tc = (bufSt i (frags ++ [tc]), []) := by
  subst hidx
  have hupd : updBuf ((lookupA (bufSt (effIdx tc) frags).toolCallBuffers (effIdx tc)).getD {}) tc =
      accBuf (frags ++ [tc]) := by
    rw [accBuf_append]
    cases frags with
    | nil => rfl
    | cons f fs => simp [bufSt, lookupA]
  have hset : setA (bufSt (effIdx tc) frags).toolCallBuffers (effIdx tc) (accBuf (frags ++ [tc])) =
      [(effIdx tc, accBuf (frags ++ [tc]))] := by
    cases frags with
    | nil => rfl
    | cons f fs => simp [bufSt, setA]
  have hcomp : (bufSt (effIdx tc) frags).completedToolCallIndices.contains (effIdx tc) = false := by
    cases frags <;> rfl
  unfold processToolCallFragment
  dsimp only
  rw [hcomp]
  simp only [Bool.false_eq_true, if_false, hupd, hset]
  have hstates : ({ bufSt (effIdx tc) frags with
      toolCallBuffers := [(effIdx tc, accBuf (frags ++ [tc]))] } : St) =
      bufSt (effIdx tc) (frags ++ [tc]) := by
    cases frags with
    | nil => rfl
    | cons f fs => rfl
  rw [hstates]
  unfold tryEmitBufferedToolCall
  dsimp only
  have hlook : lookupA (bufSt (effIdx tc) (frags ++ [tc])).toolCallBuffers (effIdx tc) =
      some (accBuf (frags ++ [tc])) := by
    cases frags <;> simp [bufSt, lookupA]
  rw [hlook]
  unfold emitReady at hnr
  cases hn : jsTruthy (accBuf (frags ++ [tc])).name with
  | false => simp [hn]
  | true =>
    rw [hn] at hnr
    simp only [Bool.true_and] at hnr
    cases hp : tryParseJSONObject (accBuf (frags ++ [tc])).args with
    | none => simp [hn, hp]
    | some v => rw [hp] at hnr; simp at hnr

theorem processToolCallFragment_emit (gen : IdGen) (i : Nat) (frags : List Fragment)
    (tc : Fragment) (hidx : effIdx tc = i)
    (hr : emitReady (accBuf (frags ++ [tc])) = true) :
    ∃ value, tryParseJSONObject (accBuf (frags ++ [tc])).args = some value ∧
      processToolCallFragment gen (bufSt i frags) tc =
        (doneSt i,
         [Part.toolCall ((accBuf (frags ++ [tc])).id.getD gen.bufId)
            ((accBuf (frags ++ [tc])).name.getD "") value]) := by
  unfold emitReady at hr
  have hn : jsTruthy (accBuf (frags ++ [tc])).name = true := by
    cases hn : jsTruthy (accBuf (frags ++ [tc])).name with
    | true => rfl
    | false => rw [hn] at hr; simp at hr
  have hp : ∃ value, tryParseJSONObject (accBuf (frags ++ [tc])).args = some value := by
    cases hp : tryParseJSONObject (accBuf (frags ++ [tc])).args with
    | some v => exact ⟨v, rfl⟩
    | none => rw [hn, hp] at hr; simp at hr
  obtain ⟨value, hval⟩ := hp
  subst hidx
  refine ⟨value, hval, ?_⟩
  have hupd : updBuf ((lookupA (bufSt (effIdx tc) frags).toolCallBuffers (effIdx tc)).getD {}) tc =
      accBuf (frags ++ [tc]) := by
    rw [accBuf_append]
    cases frags with
    | nil => rfl
    | cons f fs => simp [bufSt, lookupA]
  have hset : setA (bufSt (effIdx tc) frags).toolCallBuffers (effIdx tc) (accBuf (frags ++ [tc])) =
      [(effIdx tc, accBuf (frags ++ [tc]))] := by
    cases frags with
    | nil => rfl
    | cons f fs => simp [bufSt, setA]
  have hcomp : (bufSt (effIdx tc) frags).completedToolCallIndices.contains (effIdx tc) = false := by
    cases frags <;> rfl
  unfold processToolCallFragment
  dsimp only
  rw [hcomp]
  simp only [Bool.false_eq_true, if_false, hupd, hset]
  have hstates : ({ bufSt (effIdx tc) frags with
      toolCallBuffers := [(effIdx tc, accBuf (frags ++ [tc]))] } : St) =
      bufSt (effIdx tc) (frags ++ [tc]) := by
    cases frags with
    | nil => rfl
    | cons f fs => rfl
  rw [hstates]
  unfold tryEmitBufferedToolCall
  dsimp only
  have hlook : lookupA (bufSt (effIdx tc) (frags ++ [tc])).toolCallBuffers (effIdx tc) =
      some (accBuf (frags ++ [tc])) := by
    cases frags <;> simp [bufSt, lookupA]
  rw [hlook]
  dsimp only
  rw [hn]
  rw [if_neg (by simp)]
  rw [hval]
  dsimp only
  have herase : eraseA (bufSt (effIdx tc) (frags ++ [tc])).toolCallBuffers (effIdx tc) = [] := by
    cases frags <;> simp [bufSt, eraseA]
  have hdone : ({ bufSt (effIdx tc) (frags ++ [tc]) with
      toolCallBuffers := eraseA (bufSt (effIdx tc) (frags ++ [tc])).toolCallBuffers (effIdx tc),
      completedToolCallIndices :=
        addUniqueNat (bufSt (effIdx tc) (frags ++ [tc])).completedToolCallIndices
          (effIdx tc) } : St) =
      doneSt (effIdx tc) := by
    rw [herase]
    cases frags with
    | nil => rfl
    | cons f fs => rfl
  rw [herase] at hdone
  simp only [Prod.mk.injEq]
  refine ⟨?_, trivial⟩
  rw [← hdone, herase]

theorem processToolCallFragment_completed (gen : IdGen) (st : St) (tc : Fragment)
    (h : st.completedToolCallIndices.contains (effIdx tc) = true) :
    processToolCallFragment gen st tc = (st, []) := by
  unfold processToolCallFragment
  dsimp only
  rw [h]
  rfl

theorem processFrame_fragFrame (gen : IdGen) (st : St) (tc : Fragment)
    (hText : st.hasEmittedAssistantText = false) :
    processFrame gen st (fragFrame tc) =
      ⟨(processToolCallFragment gen st tc).2, (processToolCallFragment gen st tc).1, false⟩ := by
  unfold processFrame fragFrame processChoice processChoiceDelta processChoiceContent
  simp only [hText]
  simp

theorem runFrames_pre (gen : IdGen) (i : Nat) (rest : List Fragment) :
    ∀ acc : List Fragment,
      (∀ tc ∈ rest, effIdx tc = i) →
      (∀ k ≤ rest.length, emitReady (accBuf (acc ++ rest.take k)) = false) →
      runFrames gen (bufSt i acc) (rest.map fragFrame) =
        (List.replicate rest.length [], bufSt i (acc ++ rest), false) := by
  induction rest with
  | nil => intro acc _ _; simp [runFrames]
  | cons tc rest' ih =>
    intro acc hidx hnr
    have hstep := processToolCallFragment_pre gen i acc tc (hidx tc (List.mem_cons_self _ _))
      (by simpa using hnr 1 (by simp))
    rw [List.map_cons, runFrames, processFrame_fragFrame gen _ tc (by cases acc <;> rfl), hstep]
    have := ih (acc ++ [tc]) (fun t ht => hidx t (List.mem_cons_of_mem _ ht))
      (by
        intro k hk
        have h2 := hnr (k + 1) (by simpa using hk)
        rw [List.take_succ_cons] at h2
        rw [List.append_assoc, List.singleton_append]
        exact h2)
    rw [this]
    simp [List.replicate_succ, List.append_assoc]

theorem runFrames_done (gen : IdGen) (i : Nat) (rest : List Fragment) :
    (∀ tc ∈ rest, effIdx tc = i) →
    runFrames gen (doneSt i) (rest.map fragFrame) =
      (List.replicate rest.length [], doneSt i, false) := by
  induction rest with
  | nil => intro _; simp [runFrames]
  | cons tc rest' ih =>
    intro hidx
    have hcont : (doneSt i).completedToolCallIndices.contains (effIdx tc) = true := by
      rw [hidx tc (List.mem_cons_self _ _)]
      simp [doneSt]
    rw [List.map_cons, runFrames, processFrame_fragFrame gen _ tc rfl,
      processToolCallFragment_completed gen _ tc hcont,
      ih (fun t ht => hidx t (List.mem_cons_of_mem _ ht))]
    simp [List.replicate_succ]

theorem processFrame_finish_doneSt (gen : IdGen) (i : Nat) (r : String) :
    processFrame gen (doneSt i) (finishFrame r) = ⟨[], doneSt i, false⟩ := by
  unfold processFrame finishFrame processChoice processChoiceDelta processChoiceContent
  by_cases hc : (some r = some "tool_calls" ∨ some r = some "stop")
  · simp only [hc, if_pos]
    simp [flushToolCallBuffers, doneSt, flushEntries]
  · simp only [hc, if_neg, not_false_iff]

theorem runFrames_append (gen : IdGen) (l1 l2 : List Frame) :
    ∀ st : St, runFrames gen st (l1 ++ l2) =
      ((runFrames gen st l1).1 ++ (runFrames gen (runFrames gen st l1).2.1 l2).1,
       (runFrames gen (runFrames gen st l1).2.1 l2).2.1,
       (runFrames gen st l1).2.2 || (runFrames gen (runFrames gen st l1).2.1 l2).2.2) := by
  induction l1 with
  | nil => intro st; simp [runFrames]
  | cons f tl ih =>
    intro st
    rw [List.cons_append, runFrames, runFrames, ih]
    simp [Bool.or_assoc]

/-- C1 — single-index shape-A stream, one fragment per frame: when the
accumulated buffer for index i first becomes emission-ready at fragment m (a
truthy name plus arguments that parse as a JSON object), the run emits exactly
one ToolCall part for that index, in the frame of fragment m (early emission);
every earlier and later fragment frame emits nothing, and the trailing
finish_reason frame ("tool_calls" or "stop") flushes without re-emitting and
without error. -/
theorem C1_thm (gen : IdGen) (i : Nat) (frags : List Fragment) (r : String) (m : Nat)
    (hidx : ∀ tc ∈ frags, effIdx tc = i)
    (hm1 : 1 ≤ m) (hmn : m ≤ frags.length)
    (hready : emitReady (accBuf (frags.take m)) = true)
    (hmin : ∀ j < m, emitReady (accBuf (frags.take j)) = false) :
    ∃ value, tryParseJSONObject (accBuf (frags.take m)).args = some value ∧
      runFrames gen initSt (frags.map fragFrame ++ [finishFrame r]) =
        (List.replicate (m - 1) [] ++
          [Part.toolCall ((accBuf (frags.take m)).id.getD gen.bufId)
              ((accBuf (frags.take m)).name.getD "") value] ::
          (List.replicate (frags.length - m) [] ++ [[]]),
         doneSt i, false) := by
  have hlt : m - 1 < frags.length := by omega
  have htake : frags.take m = frags.take (m - 1) ++ [frags[m - 1]] := by
    have := List.take_succ (l := frags) (n := m - 1)
    rw [List.getElem?_eq_getElem hlt] at this
    simpa [Nat.succ_eq_add_one, Nat.sub_add_cancel hm1] using this
  have hdecomp : frags = frags.take (m - 1) ++ frags[m - 1] :: frags.drop m := by
    have hd : frags.drop (m - 1) = frags[m - 1] :: frags.drop m := by
      have := List.drop_eq_getElem_cons hlt
      simpa [Nat.succ_eq_add_one, Nat.sub_add_cancel hm1] using this
    calc frags = frags.take (m - 1) ++ frags.drop (m - 1) := (List.take_append_drop _ _).symm
    _ = frags.take (m - 1) ++ frags[m - 1] :: frags.drop m := by rw [hd]
  obtain ⟨value, hval, hstep⟩ := processToolCallFragment_emit gen i (frags.take (m - 1))
    frags[m - 1]
    (hidx _ (List.getElem_mem hlt))
    (by rwa [← htake])
  rw [← htake] at hval hstep
  refine ⟨value, hval, ?_⟩
  have hrun1 : runFrames gen initSt ((frags.take (m - 1)).map fragFrame) =
      (List.replicate (m - 1) [], bufSt i (frags.take (m - 1)), false) := by
    have hpre := runFrames_pre gen i (frags.take (m - 1)) []
      (fun tc ht => hidx tc (List.mem_of_mem_take ht))
      (by
        intro k hk
        have hklen : k ≤ m - 1 := le_trans hk (by simp)
        have htt : (frags.take (m - 1)).take k = frags.take k := by
          rw [List.take_take]
          congr 1
          omega
        rw [List.nil_append, htt]
        exact hmin k (by omega))
    rw [show (initSt : St) = bufSt i [] from rfl, hpre]
    have hlen : (frags.take (m - 1)).length = m - 1 := by
      rw [List.length_take]
      omega
    rw [hlen]
    rfl
  have hrun3 : runFrames gen (doneSt i) ((frags.drop m).map fragFrame) =
      (List.replicate (frags.length - m) [], doneSt i, false) := by
    have := runFrames_done gen i (frags.drop m)
      (fun tc ht => hidx tc (List.mem_of_mem_drop ht))
    rw [this, List.length_drop]
  have hmap : frags.map fragFrame ++ [finishFrame r] =
      (frags.take (m - 1)).map fragFrame ++
        (fragFrame frags[m - 1] :: ((frags.drop m).map fragFrame ++ [finishFrame r])) := by
    conv_lhs => rw [hdecomp]
    simp
  rw [hmap]
  rw [runFrames_append, hrun1]
  dsimp only
  rw [runFrames]
  rw [processFrame_fragFrame gen _ _ (by cases hfrag : frags.take (m - 1) <;> rfl), hstep]
  dsimp only
  rw [runFrames_append, hrun3]
  dsimp only
  rw [runFrames, processFrame_finish_doneSt, runFrames]
  simp

/-- Scenario-D first fragment: index 0, name x, argument chunk that does not
yet parse. -/
def fragD1 : Fragment := { index := some 0, fname := some "x", fargs := some "\x7b\"a\":" }

/-- Scenario-D second fragment: the rest of the argument text. -/
def fragD2 : Fragment := { index := some 0, fargs := some "1\x7d" }

/-- C1 — WITNESS (Scenario D): two fragment frames then a finish frame emit
exactly one ToolCall named x with arguments {a: 1}, in the second frame. -/
theorem C1_witness :
    ∃ value, tryParseJSONObject (accBuf ([fragD1, fragD2].take 2)).args = some value ∧
      runFrames sampleGen initSt ([fragD1, fragD2].map fragFrame ++ [finishFrame "tool_calls"]) =
        (List.replicate 1 [] ++
          [Part.toolCall ((accBuf ([fragD1, fragD2].take 2)).id.getD sampleGen.bufId)
              ((accBuf ([fragD1, fragD2].take 2)).name.getD "") value] ::
          (List.replicate ([fragD1, fragD2].length - 2) [] ++ [[]]),
         doneSt 0, false) :=
  C1_thm sampleGen 0 [fragD1, fragD2] "tool_calls" 2
    (by intro tc ht; simp [fragD1, fragD2] at ht; rcases ht with h | h <;> rw [h] <;> rfl)
    (by omega) (by simp)
    (by rfl)
    (by
      intro j hj
      interval_cases j <;> rfl)

/-! C10: every emitted ToolCall part carries a non-empty name. -/

/-- Every tool-call part in the list carries a non-empty name. -/
def partsOK (ps : List Part) : Prop :=
  ∀ p ∈ ps, ∀ id nm args, p = Part.toolCall id nm args → nm ≠ ""

/-- Name sanity of the streaming state: no buffered call and no active
inline-text call stores the empty string as its name (names are only ever
stored after a truthiness check or a non-empty regex match). -/
def stOK (st : St) : Prop :=
  (∀ e ∈ st.toolCallBuffers, e.2.name ≠ some "") ∧
  (∀ a, st.textToolActive = some a → a.name ≠ some "")

theorem partsOK_nil : partsOK [] := by
  intro p hp
  simp at hp

theorem partsOK_append {ps qs : List Part} (h1 : partsOK ps) (h2 : partsOK qs) :
    partsOK (ps ++ qs) := by
  intro p hp
  rcases List.mem_append.mp hp with h | h
  · exact h1 p h
  · exact h2 p h

theorem partsOK_text (s : String) : partsOK [Part.text s] := by
  intro p hp id nm args hpe
  rw [List.mem_singleton] at hp
  rw [hp] at hpe
  simp at hpe

theorem partsOK_toolCall {id nm args} (h : nm ≠ "") :
    partsOK [Part.toolCall id nm args] := by
  intro p hp i n a hpe
  rw [List.mem_singleton] at hp
  rw [hp] at hpe
  rw [Part.toolCall.injEq] at hpe
  rw [← hpe.2.1]
  exact h

theorem jsTruthy_ne_some_empty {o : Option String} (h : jsTruthy o = true) : o ≠ some "" := by
  intro he
  rw [he] at h
  simp [jsTruthy] at h

theorem jsTruthy_getD_ne_empty {o : Option String} (h : jsTruthy o = true) : o.getD "" ≠ "" := by
  simpa [jsTruthy] using h

theorem getD_unknown_ne_empty {o : Option String} (h : o ≠ some "") :
    o.getD "unknown_tool" ≠ "" := by
  cases o with
  | none => simp
  | some s =>
    intro he
    simp at he
    rw [he] at h
    simp at h

theorem eraseA_subset (m : List (Nat × Buf)) (k : Nat) :
    ∀ e ∈ eraseA m k, e ∈ m := by
  induction m with
  | nil => intro e he; simp [eraseA] at he
  | cons hd tl ih =>
    intro e he
    rw [eraseA] at he
    split at he
    · exact List.mem_cons_of_mem _ he
    · rcases List.mem_cons.mp he with h | h
      · rw [h]; exact List.mem_cons_self _ _
      · exact List.mem_cons_of_mem _ (ih e h)

theorem setA_mem (m : List (Nat × Buf)) (k : Nat) (v : Buf) :
    ∀ e ∈ setA m k v, e ∈ m ∨ e = (k, v) := by
  induction m with
  | nil =>
    intro e he
    rw [setA] at he
    rw [List.mem_singleton] at he
    exact Or.inr he
  | cons hd tl ih =>
    intro e he
    rw [setA] at he
    split at he
    · rcases List.mem_cons.mp he with h | h
      · exact Or.inr h
      · exact Or.inl (List.mem_cons_of_mem _ h)
    · rcases List.mem_cons.mp he with h | h
      · rw [h]; exact Or.inl (List.mem_cons_self _ _)
      · rcases ih e h with h2 | h2
        · exact Or.inl (List.mem_cons_of_mem _ h2)
        · exact Or.inr h2

theorem updBuf_name_ok (b : Buf) (tc : Fragment) (h : b.name ≠ some "") :
    (updBuf b tc).name ≠ some "" := by
  unfold updBuf
  by_cases h1 : jsTruthy tc.id = true <;> by_cases h2 : jsTruthy tc.fname = true <;>
    by_cases h3 : jsTruthy tc.fargs = true <;>
      simp [h1, h2, h3] <;>
        first
        | exact jsTruthy_ne_some_empty h2
        | exact h

theorem tryEmitBufferedToolCall_ok (gen : IdGen) (st : St) (i : Nat) :
    partsOK (tryEmitBufferedToolCall gen st i).2 ∧
    (∀ e ∈ (tryEmitBufferedToolCall gen st i).1.toolCallBuffers, e ∈ st.toolCallBuffers) ∧
    (tryEmitBufferedToolCall gen st i).1.textToolActive = st.textToolActive := by
  unfold tryEmitBufferedToolCall
  cases hl : lookupA st.toolCallBuffers i with
  | none => exact ⟨partsOK_nil, fun e he => he, rfl⟩
  | some buf =>
    dsimp only
    by_cases hn : jsTruthy buf.name = true
    · rw [if_neg (by simp [hn])]
      cases hp : tryParseJSONObject buf.args with
      | none => exact ⟨partsOK_nil, fun e he => he, rfl⟩
      | some value =>
        dsimp only
        refine ⟨?_, ?_, rfl⟩
        · have hne : buf.name.getD "" ≠ "" := jsTruthy_getD_ne_empty hn
          exact partsOK_toolCall hne
        · intro e he
          exact eraseA_subset _ _ e he
    · rw [if_pos (by simpa using hn)]
      exact ⟨partsOK_nil, fun e he => he, rfl⟩

theorem processToolCallFragment_ok (gen : IdGen) (st : St) (tc : Fragment)
    (hbuf : ∀ e ∈ st.toolCallBuffers, e.2.name ≠ some "") :
    partsOK (processToolCallFragment gen st tc).2 ∧
    (∀ e ∈ (processToolCallFragment gen st tc).1.toolCallBuffers, e.2.name ≠ some "") ∧
    (processToolCallFragment gen st tc).1.textToolActive = st.textToolActive := by
  unfold processToolCallFragment
  dsimp only
  split
  · exact ⟨partsOK_nil, hbuf, rfl⟩
  · have hold : ((lookupA st.toolCallBuffers (effIdx tc)).getD {}).name ≠ some "" := by
      cases hl : lookupA st.toolCallBuffers (effIdx tc) with
      | none => simp
      | some b =>
        have := hbuf (effIdx tc, b) (lookupA_mem _ _ _ hl)
        simpa using this
    have hnew := updBuf_name_ok _ tc hold
    have hmid : ∀ e ∈ (setA st.toolCallBuffers (effIdx tc)
        (updBuf ((lookupA st.toolCallBuffers (effIdx tc)).getD {}) tc)), e.2.name ≠ some "" := by
      intro e he
      rcases setA_mem _ _ _ e he with h | h
      · exact hbuf e h
      · rw [h]; exact hnew
    have hok := tryEmitBufferedToolCall_ok gen
      { st with toolCallBuffers :=
          (setA st.toolCallBuffers (effIdx tc)
            (updBuf ((lookupA st.toolCallBuffers (effIdx tc)).getD {}) tc)) } (effIdx tc)
    exact ⟨hok.1, fun e he => hmid e (hok.2.1 e he), hok.2.2⟩

theorem flushEntries_ok (gen : IdGen) (strict : Bool) (entries : List (Nat × Buf)) :
    ∀ st : St, (∀ e ∈ entries, e.2.name ≠ some "") →
      (∀ e ∈ st.toolCallBuffers, e.2.name ≠ some "") →
      partsOK (flushEntries gen strict entries st).1 ∧
      (∀ e ∈ (flushEntries gen strict entries st).2.1.toolCallBuffers, e.2.name ≠ some "") := by
  induction entries with
  | nil => intro st _ hst; exact ⟨partsOK_nil, hst⟩
  | cons hd tl ih =>
    intro st hent hst
    obtain ⟨k, buf⟩ := hd
    rw [flushEntries]
    cases hp : tryParseJSONObject buf.args with
    | none =>
      cases strict with
      | true => exact ⟨partsOK_nil, hst⟩
      | false =>
        exact ih st (fun e he => hent e (List.mem_cons_of_mem _ he)) hst
    | some value =>
      dsimp only
      have hname : buf.name.getD "unknown_tool" ≠ "" :=
        getD_unknown_ne_empty (by simpa using hent (k, buf) (List.mem_cons_self _ _))
      have hst2 : ∀ e ∈ (eraseA st.toolCallBuffers k), e.2.name ≠ some "" :=
        fun e he => hst e (eraseA_subset _ _ e he)
      have := ih { st with
          toolCallBuffers := eraseA st.toolCallBuffers k,
          completedToolCallIndices := addUniqueNat st.completedToolCallIndices k }
        (fun e he => hent e (List.mem_cons_of_mem _ he)) hst2
      refine ⟨?_, this.2⟩
      intro p hpmem
      rcases List.mem_cons.mp hpmem with h | h
      · intro id nm args hpe
        rw [h] at hpe
        rw [Part.toolCall.injEq] at hpe
        rw [← hpe.2.1]
        exact hname
      · exact this.1 p h

theorem partsOK_optToList {p? : Option Part}
    (h : ∀ p, p? = some p → ∀ id nm args, p = Part.toolCall id nm args → nm ≠ "") :
    partsOK p?.toList := by
  cases p? with
  | none => exact partsOK_nil
  | some p =>
    intro q hq i n a hqe
    rw [Option.toList_some, List.mem_singleton] at hq
    subst hq
    exact h q rfl i n a hqe

theorem emitTextToolCallIfValid_ok (gen : IdGen) (tes : TextEmitSt) (call : Active)
    (argText : String) (hname : call.name ≠ some "") :
    ∀ p, (emitTextToolCallIfValid gen tes call argText).1 = some p →
      ∀ id nm args, p = Part.toolCall id nm args → nm ≠ "" := by
  intro p hp id nm args hpe
  unfold emitTextToolCallIfValid at hp
  cases hparse : tryParseJSONObject argText with
  | none => rw [hparse] at hp; simp at hp
  | some value =>
    rw [hparse] at hp
    dsimp only at hp
    have hgn : call.name.getD "unknown_tool" ≠ "" := getD_unknown_ne_empty hname
    cases hix : call.index with
    | some ix =>
      rw [hix] at hp
      dsimp only at hp
      split at hp
      · simp at hp
      · simp only [Option.some.injEq] at hp
        rw [← hp] at hpe
        rw [Part.toolCall.injEq] at hpe
        rw [← hpe.2.1]
        exact hgn
    | none =>
      rw [hix] at hp
      dsimp only at hp
      split at hp
      · simp at hp
      · simp only [Option.some.injEq] at hp
        rw [← hp] at hpe
        rw [Part.toolCall.injEq] at hpe
        rw [← hpe.2.1]
        exact hgn

theorem parseHeader_fst_ne (header : List Char) : (parseHeader header).1 ≠ some "" := by
  unfold parseHeader
  dsimp only
  split
  · simp
  · next hne =>
    have hs : String.mk (header.takeWhile isNameCh) ≠ "" := by
      intro hcon
      apply hne
      have := congrArg String.data hcon
      simpa using this
    split
    · split <;> simp [hs]
    · simp [hs]

theorem ptcLoop_ok (gen : IdGen) (fuel : Nat) :
    ∀ (data : List Char) (pb : String) (active : Option Active) (tes : TextEmitSt)
      (vis : List Char) (parts : List Part) (ea : Bool),
      (∀ a, active = some a → a.name ≠ some "") → partsOK parts →
      partsOK (ptcLoop gen fuel data pb active tes vis parts ea).parts ∧
      (∀ a, (ptcLoop gen fuel data pb active tes vis parts ea).active = some a →
        a.name ≠ some "") := by
  induction fuel with
  | zero =>
    intro data pb active tes vis parts ea hact hparts
    rw [ptcLoop.eq_def]
    exact ⟨hparts, hact⟩
  | succ fuel ih =>
    intro data pb active tes vis parts ea hact hparts
    rw [ptcLoop.eq_def]
    cases data with
    | nil => exact ⟨hparts, hact⟩
    | cons c rest =>
      dsimp only
      cases active with
      | none =>
        cases hb : idxOfSub BEGINtok (c :: rest) with
        | none =>
          dsimp only
          split
          · exact ⟨hparts, by intro a ha; cases ha⟩
          · exact ⟨hparts, by intro a ha; cases ha⟩
        | some b =>
          dsimp only
          cases ha : idxOfSub ARGBEGINtok (List.drop (b + BEGINtok.length) (c :: rest)) with
          | none =>
            cases he : idxOfSub ENDtok (List.drop (b + BEGINtok.length) (c :: rest)) with
            | none =>
              dsimp only
              exact ⟨hparts, by intro a ha2; cases ha2⟩
            | some ei =>
              dsimp only
              rcases hph : parseHeader (jsTrim (List.take ei
                  (List.drop (b + BEGINtok.length) (c :: rest)))) with ⟨nm, ix⟩
              dsimp only
              have hnm : nm ≠ some "" := by
                have := parseHeader_fst_ne (jsTrim (List.take ei
                  (List.drop (b + BEGINtok.length) (c :: rest))))
                rw [hph] at this
                exact this
              rcases hem : emitTextToolCallIfValid gen tes
                { name := nm, index := ix, argBuffer := "", emitted := false } "{}" with ⟨p?, tes'⟩
              dsimp only
              refine ih _ _ _ _ _ _ _ (by intro a ha2; cases ha2) ?_
              refine partsOK_append hparts (partsOK_optToList ?_)
              intro p hpeq
              have := emitTextToolCallIfValid_ok gen tes
                { name := nm, index := ix, argBuffer := "", emitted := false } "{}" hnm p
              rw [hem] at this
              exact this hpeq
          | some ai =>
            cases he : idxOfSub ENDtok (List.drop (b + BEGINtok.length) (c :: rest)) with
            | none =>
              dsimp only
              rcases hph : parseHeader (jsTrim (List.take ai
                  (List.drop (b + BEGINtok.length) (c :: rest)))) with ⟨nm, ix⟩
              dsimp only
              refine ih _ _ _ _ _ _ _ ?_ hparts
              intro a ha2
              rw [Option.some.injEq] at ha2
              rw [← ha2]
              have hfst := parseHeader_fst_ne (jsTrim (List.take ai
                (List.drop (b + BEGINtok.length) (c :: rest))))
              rw [hph] at hfst
              simpa using hfst
            | some ei =>
              dsimp only
              split
              · rcases hph : parseHeader (jsTrim (List.take ai
                    (List.drop (b + BEGINtok.length) (c :: rest)))) with ⟨nm, ix⟩
                dsimp only
                refine ih _ _ _ _ _ _ _ ?_ hparts
                intro a ha2
                rw [Option.some.injEq] at ha2
                rw [← ha2]
                have hfst := parseHeader_fst_ne (jsTrim (List.take ai
                  (List.drop (b + BEGINtok.length) (c :: rest))))
                rw [hph] at hfst
                simpa using hfst
              · rcases hph : parseHeader (jsTrim (List.take ei
                    (List.drop (b + BEGINtok.length) (c :: rest)))) with ⟨nm, ix⟩
                dsimp only
                have hnm : nm ≠ some "" := by
                  have := parseHeader_fst_ne (jsTrim (List.take ei
                    (List.drop (b + BEGINtok.length) (c :: rest))))
                  rw [hph] at this
                  exact this
                rcases hem : emitTextToolCallIfValid gen tes
                  { name := nm, index := ix, argBuffer := "", emitted := false } "{}" with
                  ⟨p?, tes'⟩
                dsimp only
                refine ih _ _ _ _ _ _ _ (by intro a ha2; cases ha2) ?_
                refine partsOK_append hparts (partsOK_optToList ?_)
                intro p hpeq
                have := emitTextToolCallIfValid_ok gen tes
                  { name := nm, index := ix, argBuffer := "", emitted := false } "{}" hnm p
                rw [hem] at this
                exact this hpeq
      | some act =>
        have hactn : act.name ≠ some "" := hact act rfl
        cases he : idxOfSub ENDtok (c :: rest) with
        | none =>
          dsimp only
          split
          · rcases hem : emitTextToolCallIfValid gen tes
              { act with argBuffer := act.argBuffer ++ String.mk (c :: rest) }
              ({ act with argBuffer := act.argBuffer ++ String.mk (c :: rest) } : Active).argBuffer
              with ⟨p?, tes'⟩
            dsimp only
            constructor
            · refine partsOK_append hparts (partsOK_optToList ?_)
              intro p hpeq
              have := emitTextToolCallIfValid_ok gen tes
                { act with argBuffer := act.argBuffer ++ String.mk (c :: rest) }
                ({ act with argBuffer := act.argBuffer ++ String.mk (c :: rest) } : Active).argBuffer
                (by simpa using hactn) p
              rw [hem] at this
              exact this hpeq
            · intro a ha2
              split at ha2 <;>
                · rw [Option.some.injEq] at ha2
                  rw [← ha2]
                  simpa using hactn
          · refine ⟨hparts, ?_⟩
            intro a ha2
            rw [Option.some.injEq] at ha2
            rw [← ha2]
            simpa using hactn
        | some ei =>
          dsimp only
          split
          · rcases hem : emitTextToolCallIfValid gen tes
              { act with argBuffer := act.argBuffer ++ String.mk (List.take ei (c :: rest)) }
              ({ act with argBuffer := act.argBuffer ++
                  String.mk (List.take ei (c :: rest)) } : Active).argBuffer with ⟨p?, tes'⟩
            dsimp only
            refine ih _ _ _ _ _ _ _ (by intro a ha2; cases ha2) ?_
            refine partsOK_append hparts (partsOK_optToList ?_)
            intro p hpeq
            have := emitTextToolCallIfValid_ok gen tes
              { act with argBuffer := act.argBuffer ++ String.mk (List.take ei (c :: rest)) }
              ({ act with argBuffer := act.argBuffer ++
                  String.mk (List.take ei (c :: rest)) } : Active).argBuffer
              (by simpa using hactn) p
            rw [hem] at this
            exact this hpeq
          · exact ih _ _ _ _ _ _ _ (by intro a ha2; cases ha2) hparts

theorem partsOK_ite_text (c : Prop) [Decidable c] (s : String) :
    partsOK (if c then [Part.text s] else []) := by
  split
  · exact partsOK_text s
  · exact partsOK_nil

theorem processTextContent_ok (gen : IdGen) (st : St) (input : String)
    (hact : ∀ a, st.textToolActive = some a → a.name ≠ some "") :
    partsOK (processTextContent gen st input).2.1 ∧
    (∀ a, (processTextContent gen st input).1.textToolActive = some a → a.name ≠ some "") ∧
    (processTextContent gen st input).1.toolCallBuffers = st.toolCallBuffers := by
  unfold processTextContent
  dsimp only
  have hloop := ptcLoop_ok gen ((st.textToolParserBuffer.data ++ input.data).length + 1)
    (st.textToolParserBuffer.data ++ input.data) st.textToolParserBuffer st.textToolActive
    { keys := st.emittedTextToolCallKeys, ids := st.emittedTextToolCallIds } [] [] false
    hact partsOK_nil
  exact ⟨partsOK_append hloop.1 (partsOK_ite_text _ _), hloop.2, rfl⟩

theorem flushActiveTextToolCall_ok (gen : IdGen) (st : St)
    (hact : ∀ a, st.textToolActive = some a → a.name ≠ some "") :
    partsOK (flushActiveTextToolCall gen st).2 ∧
    (∀ a, (flushActiveTextToolCall gen st).1.textToolActive = some a → a.name ≠ some "") ∧
    (flushActiveTextToolCall gen st).1.toolCallBuffers = st.toolCallBuffers := by
  unfold flushActiveTextToolCall
  cases hA : st.textToolActive with
  | none =>
    refine ⟨partsOK_nil, ?_, rfl⟩
    intro a ha
    dsimp only at ha
    rw [hA] at ha
    cases ha
  | some act =>
    dsimp only
    rcases hem : emitTextToolCallIfValid gen
      { keys := st.emittedTextToolCallKeys, ids := st.emittedTextToolCallIds } act
      act.argBuffer with ⟨p?, tes'⟩
    refine ⟨partsOK_optToList ?_, ?_, rfl⟩
    · intro p hpeq
      have := emitTextToolCallIfValid_ok gen
        { keys := st.emittedTextToolCallKeys, ids := st.emittedTextToolCallIds } act
        act.argBuffer (hact act hA) p
      rw [hem] at this
      exact this hpeq
    · intro a ha
      cases ha

theorem foldFragments_ok (gen : IdGen) (tcs : List Fragment) :
    ∀ (st : St) (parts : List Part),
      (∀ e ∈ st.toolCallBuffers, e.2.name ≠ some "") → partsOK parts →
      partsOK (tcs.foldl (fun (acc : St × List Part) tc =>
          let (st', ps) := processToolCallFragment gen acc.1 tc
          (st', acc.2 ++ ps)) (st, parts)).2 ∧
      (∀ e ∈ (tcs.foldl (fun (acc : St × List Part) tc =>
          let (st', ps) := processToolCallFragment gen acc.1 tc
          (st', acc.2 ++ ps)) (st, parts)).1.toolCallBuffers, e.2.name ≠ some "") ∧
      (tcs.foldl (fun (acc : St × List Part) tc =>
          let (st', ps) := processToolCallFragment gen acc.1 tc
          (st', acc.2 ++ ps)) (st, parts)).1.textToolActive = st.textToolActive := by
  induction tcs with
  | nil => intro st parts h1 h2; exact ⟨h2, h1, rfl⟩
  | cons tc tl ih =>
    intro st parts h1 h2
    rw [List.foldl_cons]
    have hstep := processToolCallFragment_ok gen st tc h1
    rcases hpf : processToolCallFragment gen st tc with ⟨st1, ps1⟩
    rw [hpf] at hstep
    dsimp only
    have hrec := ih st1 (parts ++ ps1) hstep.2.1 (partsOK_append h2 hstep.1)
    refine ⟨hrec.1, hrec.2.1, ?_⟩
    rw [hrec.2.2]
    exact hstep.2.2

theorem processChoiceContent_ok (gen : IdGen) (st : St) (content : Option String)
    (hbuf : ∀ e ∈ st.toolCallBuffers, e.2.name ≠ some "")
    (hact : ∀ a, st.textToolActive = some a → a.name ≠ some "") :
    partsOK (processChoiceContent gen st content).2 ∧
    (∀ e ∈ (processChoiceContent gen st content).1.toolCallBuffers, e.2.name ≠ some "") ∧
    (∀ a, (processChoiceContent gen st content).1.textToolActive = some a →
      a.name ≠ some "") := by
  unfold processChoiceContent
  cases content with
  | none => exact ⟨partsOK_nil, hbuf, hact⟩
  | some c =>
    dsimp only
    by_cases hce : c ≠ ""
    · rw [if_pos hce]
      have htc := processTextContent_ok gen st c hact
      rcases hpt : processTextContent gen st c with ⟨st1, ps, emittedText, eb⟩
      rw [hpt] at htc
      dsimp only at htc ⊢
      refine ⟨htc.1, ?_, ?_⟩
      · intro e he
        split at he <;>
          · try dsimp only at he
            rw [htc.2.2] at he
            exact hbuf e he
      · intro a ha
        split at ha <;>
          · try dsimp only at ha
            exact htc.2.1 a ha
    · rw [if_neg hce]
      exact ⟨partsOK_nil, hbuf, hact⟩

theorem processChoiceDelta_ok (gen : IdGen) (st : St) (delta? : Option DeltaObj)
    (hbuf : ∀ e ∈ st.toolCallBuffers, e.2.name ≠ some "")
    (hact : ∀ a, st.textToolActive = some a → a.name ≠ some "") :
    partsOK (processChoiceDelta gen st delta?).2 ∧
    (∀ e ∈ (processChoiceDelta gen st delta?).1.toolCallBuffers, e.2.name ≠ some "") ∧
    (∀ a, (processChoiceDelta gen st delta?).1.textToolActive = some a →
      a.name ≠ some "") := by
  unfold processChoiceDelta
  cases delta? with
  | none => exact ⟨partsOK_nil, hbuf, hact⟩
  | some d =>
    dsimp only
    have hA := processChoiceContent_ok gen st d.content hbuf hact
    rcases hpc : processChoiceContent gen st d.content with ⟨stA, partsA⟩
    rw [hpc] at hA
    dsimp only at hA ⊢
    cases htc : d.tool_calls with
    | none => exact ⟨hA.1, hA.2.1, hA.2.2⟩
    | some tcs =>
      dsimp only
      split
      · have hfold := foldFragments_ok gen tcs
          { stA with emittedBeginToolCallsHint := true }
          (partsA ++ [Part.text " "]) hA.2.1 (partsOK_append hA.1 (partsOK_text " "))
        refine ⟨hfold.1, hfold.2.1, ?_⟩
        intro a ha
        rw [hfold.2.2] at ha
        exact hA.2.2 a ha
      · have hfold := foldFragments_ok gen tcs stA partsA hA.2.1 hA.1
        refine ⟨hfold.1, hfold.2.1, ?_⟩
        intro a ha
        rw [hfold.2.2] at ha
        exact hA.2.2 a ha

theorem processChoice_ok (gen : IdGen) (st : St) (delta? : Option DeltaObj)
    (finish : Option String)
    (hbuf : ∀ e ∈ st.toolCallBuffers, e.2.name ≠ some "")
    (hact : ∀ a, st.textToolActive = some a → a.name ≠ some "") :
    partsOK (processChoice gen st delta? finish).parts ∧
    (∀ e ∈ (processChoice gen st delta? finish).st.toolCallBuffers, e.2.name ≠ some "") ∧
    (∀ a, (processChoice gen st delta? finish).st.textToolActive = some a →
      a.name ≠ some "") := by
  unfold processChoice
  have hA := processChoiceDelta_ok gen st delta? hbuf hact
  rcases hpd : processChoiceDelta gen st delta? with ⟨stA, partsA⟩
  rw [hpd] at hA
  dsimp only at hA ⊢
  split
  · rw [flushToolCallBuffers]
    have hflush := flushEntries_ok gen true stA.toolCallBuffers stA hA.2.1 hA.2.1
    have hpres := flushEntries_textToolActive gen true stA.toolCallBuffers stA
    dsimp only
    refine ⟨partsOK_append hA.1 hflush.1, hflush.2, ?_⟩
    intro a ha
    rw [hpres] at ha
    exact hA.2.2 a ha
  · exact ⟨hA.1, hA.2.1, hA.2.2⟩

theorem processFrame_ok (gen : IdGen) (st : St) (f : Frame)
    (hbuf : ∀ e ∈ st.toolCallBuffers, e.2.name ≠ some "")
    (hact : ∀ a, st.textToolActive = some a → a.name ≠ some "") :
    partsOK (processFrame gen st f).parts ∧
    (∀ e ∈ (processFrame gen st f).st.toolCallBuffers, e.2.name ≠ some "") ∧
    (∀ a, (processFrame gen st f).st.textToolActive = some a → a.name ≠ some "") := by
  cases f with
  | outputTextDelta d t c =>
    unfold processFrame
    dsimp only
    split
    · split <;> split <;>
        first
          | exact ⟨partsOK_text _, hbuf, hact⟩
          | exact ⟨partsOK_nil, hbuf, hact⟩
    · exact ⟨partsOK_nil, hbuf, hact⟩
  | outputItemDone item? =>
    unfold processFrame
    cases item? with
    | none => exact ⟨partsOK_nil, hbuf, hact⟩
    | some item =>
      dsimp only
      split
      · split
        · cases hp : tryParseJSONObject (item.arguments.getD "") with
          | none => exact ⟨partsOK_nil, hbuf, hact⟩
          | some value =>
            refine ⟨?_, hbuf, hact⟩
            by_cases hn : jsTruthy item.name = true
            · rw [if_pos hn]
              exact partsOK_toolCall (jsTruthy_getD_ne_empty hn)
            · rw [if_neg hn]
              exact partsOK_toolCall (by decide)
        · exact ⟨partsOK_nil, hbuf, hact⟩
      · exact ⟨partsOK_nil, hbuf, hact⟩
  | choices d fin => exact processChoice_ok gen st d fin hbuf hact
  | outputText found text fin =>
    unfold processFrame
    cases found with
    | true =>
      dsimp only
      exact processChoice_ok gen st (some { content := text, tool_calls := none }) fin hbuf hact
    | false => exact ⟨partsOK_nil, hbuf, hact⟩
  | topLevel content text =>
    unfold processFrame
    dsimp only
    split
    · exact processChoice_ok gen st (some { content := jsOrStr content text, tool_calls := none })
        none hbuf hact
    · exact ⟨partsOK_nil, hbuf, hact⟩
  | unrecognized => exact ⟨partsOK_nil, hbuf, hact⟩

theorem handleDone_ok (gen : IdGen) (st : St)
    (hbuf : ∀ e ∈ st.toolCallBuffers, e.2.name ≠ some "")
    (hact : ∀ a, st.textToolActive = some a → a.name ≠ some "") :
    partsOK (handleDone gen st).1 ∧
    (∀ e ∈ (handleDone gen st).2.1.toolCallBuffers, e.2.name ≠ some "") ∧
    (∀ a, (handleDone gen st).2.1.textToolActive = some a → a.name ≠ some "") := by
  unfold handleDone
  rw [flushToolCallBuffers]
  have hflush := flushEntries_ok gen false st.toolCallBuffers st hbuf hbuf
  have hpres := flushEntries_textToolActive gen false st.toolCallBuffers st
  have hact1 : ∀ a, (flushEntries gen false st.toolCallBuffers st).2.1.textToolActive = some a →
      a.name ≠ some "" := by
    intro a ha
    rw [hpres] at ha
    exact hact a ha
  have hfa := flushActiveTextToolCall_ok gen (flushEntries gen false st.toolCallBuffers st).2.1
    hact1
  dsimp only
  refine ⟨partsOK_append hflush.1 hfa.1, ?_, hfa.2.1⟩
  intro e he
  rw [hfa.2.2] at he
  exact hflush.2 e he

theorem runLines_ok (gen : IdGen) (lines : List Line) :
    ∀ st : St,
      (∀ e ∈ st.toolCallBuffers, e.2.name ≠ some "") →
      (∀ a, st.textToolActive = some a → a.name ≠ some "") →
      partsOK (runLines gen st lines).1 := by
  induction lines with
  | nil => intro st _ _; exact partsOK_nil
  | cons l rest ih =>
    intro st hbuf hact
    cases l with
    | done =>
      have hd := handleDone_ok gen st hbuf hact
      rw [runLines]
      unfold processLine
      rcases hdn : handleDone gen st with ⟨p1, st1, threw⟩
      rw [hdn] at hd
      dsimp only at hd ⊢
      exact partsOK_append hd.1 (ih st1 hd.2.1 hd.2.2)
    | frame f =>
      have hf := processFrame_ok gen st f hbuf hact
      rw [runLines]
      unfold processLine
      dsimp only
      exact partsOK_append hf.1 (ih (processFrame gen st f).st hf.2.1 hf.2.2)

set_option maxHeartbeats 20000000 in
/-- C10 — every ToolCall part emitted to the caller over any decoded stream
carries a non-empty tool name; in particular, a buffered indexed call whose
stream never supplied a name but whose arguments parse is emitted at the done
sentinel under the placeholder name unknown_tool rather than dropped or
emitted nameless. -/
theorem C10_thm :
    (∀ (gen : IdGen) (lines : List Line) (p : Part),
        p ∈ (runLines gen initSt lines).1 →
        ∀ id nm args, p = Part.toolCall id nm args → nm ≠ "") ∧
    (∀ gen : IdGen,
        (runLines gen initSt
          [Line.frame (fragFrame { index := some 0, fargs := some "{}" }), Line.done]).1 =
        [Part.toolCall gen.bufId "unknown_tool" []]) := by
  constructor
  · intro gen lines p hp
    exact runLines_ok gen lines initSt (by intro e he; simp [initSt] at he)
      (by intro a ha; simp [initSt] at ha) p hp
  · intro gen
    rfl

/-- C10 — WITNESS: the unknown_tool part emitted by the concrete nameless
stream indeed carries a non-empty name. -/
theorem C10_witness : ("unknown_tool" : String) ≠ "" :=
  C10_thm.1 sampleGen
    [Line.frame (fragFrame { index := some 0, fargs := some "{}" }), Line.done]
    (Part.toolCall sampleGen.bufId "unknown_tool" [])
    (by rw [C10_thm.2 sampleGen]; exact List.mem_singleton.mpr rfl)
    sampleGen.bufId "unknown_tool" [] rfl

end LiteLLM
